import Mathlib

/-!
Verification development for the `compose-agentsmd` CLI
(`src/compose-agents.ts`, main variant).

The TypeScript source is shallowly embedded: pure string/array routines
become Lean functions on `String` / `List`; filesystem and `git`
interactions become explicit environment records (`Env`, `GitEnv`), and
the only writes performed by `composeRuleset` (the final
`mkdirSync` + `writeFileSync`) are modelled as an explicit effect list.
String operations are implemented over `String.data` (lists of
characters) so that every definition evaluates by kernel reduction.
-/

namespace ComposeAgentsMd

/-! ### JavaScript string primitives -/

/-- Characters matched by the JavaScript regular-expression class `\s`
(as used in `/\s+$/u`, `/\s+/u` and `String.prototype.trim`):
tab, LF, VT, FF, CR, space, NBSP, and the Unicode space separators,
line/paragraph separators and BOM. -/
def jsWS (c : Char) : Bool :=
  c.toNat == 9 || c.toNat == 10 || c.toNat == 11 || c.toNat == 12 || c.toNat == 13 ||
  c.toNat == 32 || c.toNat == 160 || c.toNat == 0x1680 ||
  (0x2000 ≤ c.toNat && c.toNat ≤ 0x200A) ||
  c.toNat == 0x2028 || c.toNat == 0x2029 || c.toNat == 0x202F || c.toNat == 0x205F ||
  c.toNat == 0x3000 || c.toNat == 0xFEFF

/-- `normalizeTrailingWhitespace` from the source:
`content.replace(/\s+$/u, "")`, i.e. remove the maximal run of trailing
whitespace characters at the end of the whole string. -/
def normalizeTrailingWhitespace (s : String) : String :=
  String.mk ((s.data.reverse.dropWhile jsWS).reverse)

/-- `String.prototype.trim`: strip leading and trailing whitespace. -/
def jsTrim (s : String) : String :=
  String.mk (((s.data.dropWhile jsWS).reverse.dropWhile jsWS).reverse)

/-- Helper for `splitOnChar`: split a character list at every occurrence
of the separator (occurrences delimit possibly-empty groups). -/
def splitOnCharCore (sep : Char) : List Char → List (List Char)
  | [] => [[]]
  | c :: rest =>
    let groups := splitOnCharCore sep rest
    if c = sep then [] :: groups
    else
      match groups with
      | [] => [[c]]
      | g :: gs => (c :: g) :: gs

/-- `String.prototype.split` with a one-character string separator:
`"a@b@c".split("@") = ["a","b","c"]`, `"".split(".") = [""]`,
`"a.".split(".") = ["a",""]`. -/
def splitOnChar (sep : Char) (s : String) : List String :=
  (splitOnCharCore sep s.data).map String.mk

/-- Helper for `splitWS`: group maximal runs of non-whitespace characters. -/
def splitWSCore : List Char → List (List Char)
  | [] => []
  | c :: rest =>
    let groups := splitWSCore rest
    if jsWS c then [] :: groups
    else
      match groups with
      | [] => [[c]]
      | g :: gs => (c :: g) :: gs

/-- `String.prototype.split(/\s+/u)` as applied in the source: the source
only ever applies it to trimmed strings, for which the result is the list
of maximal non-whitespace runs (empty fields cannot occur). -/
def splitWS (s : String) : List String :=
  ((splitWSCore s.data).map String.mk).filter (fun t => t ≠ "")

/-- Helper for `replaceFirst`. -/
def replaceFirstCore (pat repl : List Char) : List Char → List Char
  | [] => []
  | c :: rest =>
    if pat.isPrefixOf (c :: rest) then repl ++ (c :: rest).drop pat.length
    else c :: replaceFirstCore pat repl rest

/-- `String.prototype.replace` with a plain-string pattern: replace the
first occurrence of `pat` (if any) by `repl`. -/
def replaceFirst (s pat repl : String) : String :=
  if pat.data.isPrefixOf s.data then
    String.mk (repl.data ++ s.data.drop pat.data.length)
  else String.mk (replaceFirstCore pat.data repl.data s.data)

/-- `String.prototype.startsWith` for plain strings. -/
def strStartsWith (s pre : String) : Bool :=
  pre.data.isPrefixOf s.data

/-- `String.prototype.toLowerCase`, restricted to ASCII (the only case
mappings exercised by the source's inputs). -/
def toLowerStr (s : String) : String :=
  String.mk (s.data.map Char.toLower)

/-- `Array.prototype.join(sep)` on a list of strings. -/
def joinSep (sep : String) : List String → String
  | [] => ""
  | [x] => x
  | x :: y :: xs => x ++ sep ++ joinSep sep (y :: xs)

/-- `path.extname` applied to a base name (no directory separators):
the suffix starting at the last `.`, empty when there is no `.` or when
the only `.` is the leading character (`".md"` has extension `""`). -/
def extname (name : String) : String :=
  let rev := name.data.reverse
  let pre := rev.takeWhile (fun c => c ≠ '.')
  if pre.length = rev.length then ""
  else if pre.length + 1 = rev.length then ""
  else String.mk ('.' :: pre.reverse)

/-! ### The comparator of `String.prototype.localeCompare`

The source sorts collected markdown files with
`relA.localeCompare(relB)`.  Under Node's default ICU root/`en`
collation, ASCII strings compare case-insensitively at primary strength
(`"a" < "B"`), with lowercase ordered before uppercase as the
tie-breaker.  For the ASCII alphanumeric-and-punctuation strings the
tool handles this is captured by the key below: primary key = the
lowercased character sequence, tie-broken by the case pattern
(lowercase before uppercase).  Note this comparator is *not* the ordinal
(code-unit) order: ordinally `"B" < "a"`. -/

/-- Primary collation weight of a character: ASCII uppercase letters
collate with their lowercase forms, every other character by its code
point. -/
def lowerCode (c : Char) : Nat :=
  if 65 ≤ c.toNat ∧ c.toNat ≤ 90 then c.toNat + 32 else c.toNat

/-- Tertiary collation weight: `false` (lowercase and everything else)
sorts before `true` (ASCII uppercase). -/
def upperBit (c : Char) : Bool :=
  decide (65 ≤ c.toNat ∧ c.toNat ≤ 90)

/-- Collation key modelling `localeCompare`: compare primary weights
lexicographically, then the case pattern. -/
def localeKey (s : String) : List Nat × List Bool :=
  (s.data.map lowerCode, s.data.map upperBit)

/-- The set ordering used by the source's `sort((a,b) => a.localeCompare(b))`:
`a` may be placed before `b` iff `a.localeCompare(b) ≤ 0`. -/
def localeLe (a b : String) : Prop :=
  toLex (localeKey a) ≤ toLex (localeKey b)

instance (a b : String) : Decidable (localeLe a b) := by
  unfold localeLe
  infer_instance

theorem localeLe_total (a b : String) : localeLe a b ∨ localeLe b a :=
  le_total (toLex (localeKey a)) (toLex (localeKey b))

theorem localeLe_trans {a b c : String} (h1 : localeLe a b) (h2 : localeLe b c) :
    localeLe a c :=
  le_trans h1 h2

/-- A character is determined by its primary and tertiary collation
weights. -/
theorem lowerCode_upperBit_inj {c d : Char} (h1 : lowerCode c = lowerCode d)
    (h2 : upperBit c = upperBit d) : c = d := by
  unfold lowerCode at h1
  unfold upperBit at h2
  by_cases hc : 65 ≤ c.toNat ∧ c.toNat ≤ 90
  · have hd : 65 ≤ d.toNat ∧ d.toNat ≤ 90 := by
      by_contra hd
      simp [hc, hd] at h2
    rw [if_pos hc, if_pos hd] at h1
    have h1' : c.toNat = d.toNat := by omega
    exact Char.ext (UInt32.ext h1')
  · have hd : ¬ (65 ≤ d.toNat ∧ d.toNat ≤ 90) := by
      by_contra hd
      simp [hc, hd] at h2
    rw [if_neg hc, if_neg hd] at h1
    exact Char.ext (UInt32.ext h1)

/-- The collation key determines the string. -/
theorem localeKey_inj {a b : String} (h : localeKey a = localeKey b) : a = b := by
  obtain ⟨da⟩ := a
  obtain ⟨db⟩ := b
  simp only [localeKey, Prod.mk.injEq] at h
  obtain ⟨h1, h2⟩ := h
  suffices hd : da = db by exact congrArg String.mk hd
  induction da generalizing db with
  | nil => cases db <;> simp_all
  | cons c cs ih =>
    cases db with
    | nil => simp_all
    | cons d ds =>
      simp only [List.map_cons, List.cons.injEq] at h1 h2
      rw [lowerCode_upperBit_inj h1.1 h2.1, ih ds h1.2 h2.2]

theorem localeLe_antisymm {a b : String} (h1 : localeLe a b) (h2 : localeLe b a) :
    a = b := by
  have : toLex (localeKey a) = toLex (localeKey b) := le_antisymm h1 h2
  exact localeKey_inj (by simpa using this)

/-! ### JavaScript `Number()` conversion and semantic versions -/

/-- Numeric value of a decimal digit character. -/
def digitVal (c : Char) : Option Nat :=
  if '0' ≤ c ∧ c ≤ '9' then some (c.toNat - 48) else none

/-- Value of a nonempty list of decimal digits. -/
def decDigitsVal : List Char → Option Nat
  | [] => none
  | l => l.foldlM (fun acc c => (digitVal c).map (fun d => acc * 10 + d)) 0

/-- Numeric value of a hexadecimal digit character. -/
def hexDigitVal (c : Char) : Option Nat :=
  if '0' ≤ c ∧ c ≤ '9' then some (c.toNat - 48)
  else if 'a' ≤ c ∧ c ≤ 'f' then some (c.toNat - 87)
  else if 'A' ≤ c ∧ c ≤ 'F' then some (c.toNat - 55)
  else none

/-- Value of a nonempty list of hexadecimal digits. -/
def hexDigitsVal : List Char → Option Nat
  | [] => none
  | l => l.foldlM (fun acc c => (hexDigitVal c).map (fun d => acc * 16 + d)) 0

/-- A JavaScript number produced by `Number()` on the integer/exponent
forms reachable here: the value is `mant / 10 ^ negExp`.  Represented as
an unnormalized pair so that every operation is plain integer arithmetic
(exact; IEEE rounding above 2^53, irrelevant for version components, is
not modelled). -/
structure JSNum where
  mant : Int
  negExp : Nat
deriving DecidableEq

def JSNum.zero : JSNum := ⟨0, 0⟩

def JSNum.neg (x : JSNum) : JSNum := ⟨-x.mant, x.negExp⟩

/-- Exact difference `a - b`, over the common denominator. -/
def JSNum.sub (a b : JSNum) : JSNum :=
  ⟨a.mant * 10 ^ b.negExp - b.mant * 10 ^ a.negExp, a.negExp + b.negExp⟩

/-- JavaScript `===` on the numeric values. -/
def JSNum.eqv (a b : JSNum) : Prop :=
  a.mant * 10 ^ b.negExp = b.mant * 10 ^ a.negExp

instance (a b : JSNum) : Decidable (a.eqv b) := by
  unfold JSNum.eqv
  infer_instance

theorem JSNum.eqv_symm {a b : JSNum} (h : a.eqv b) : b.eqv a := h.symm

/-- Valuation into `ℚ` (used only in proofs). -/
def JSNum.val (x : JSNum) : ℚ := (x.mant : ℚ) / 10 ^ x.negExp

/-- Decimal form accepted by `Number()` for strings containing no `.`:
digits with an optional exponent part (`123`, `1e2`, `1E-2`).
`none` models `NaN`. -/
def decForm (l : List Char) : Option JSNum :=
  let ds := l.takeWhile (fun c => c.isDigit)
  let rest := l.dropWhile (fun c => c.isDigit)
  match rest with
  | [] => (decDigitsVal ds).map (fun n => ⟨(n : Int), 0⟩)
  | e :: expPart =>
    if e = 'e' ∨ e = 'E' then
      let (negSign, digits) :=
        match expPart with
        | '+' :: d => (false, d)
        | '-' :: d => (true, d)
        | d => (false, d)
      match decDigitsVal ds, decDigitsVal digits with
      | some m, some ex =>
        if negSign then some ⟨(m : Int), ex⟩
        else some ⟨(m : Int) * 10 ^ ex, 0⟩
      | _, _ => none
    else none

/-- JavaScript `Number(string)` conversion, for the argument shapes that
can reach it here (components of a tag split on `"."`, hence containing
no `.`): trimmed; empty string is `0`; optional sign followed by a
decimal form; unsigned `0x`/`0X` radix literals.  `none` models `NaN`.
(`"Infinity"` and fraction forms, impossible for these inputs, are not
modelled.) -/
def jsNumber (s : String) : Option JSNum :=
  let t := (jsTrim s).data
  match t with
  | [] => some JSNum.zero
  | '+' :: rest => decForm rest
  | '-' :: rest => (decForm rest).map JSNum.neg
  | '0' :: 'x' :: rest => (hexDigitsVal rest).map (fun n => ⟨(n : Int), 0⟩)
  | '0' :: 'X' :: rest => (hexDigitsVal rest).map (fun n => ⟨(n : Int), 0⟩)
  | _ => decForm t

/-- `parseSemver` from the source: strip an optional leading `v`, split
on `.`, require 2 or 3 components, convert each with `Number()`; any
`NaN` component rejects the tag. -/
def parseSemver (tag : String) : Option (List JSNum) :=
  let cleaned := if strStartsWith tag "v" then String.mk (tag.data.drop 1) else tag
  let parts := splitOnChar '.' cleaned
  if parts.length < 2 ∨ 3 < parts.length then none
  else parts.mapM jsNumber

/-- `compareSemver`, exhausted-left side: the remaining loop iterations
compare `0` against each remaining right component. -/
def compareZerosL : List JSNum → JSNum
  | [] => JSNum.zero
  | b :: bs => if JSNum.eqv JSNum.zero b then compareZerosL bs else JSNum.sub JSNum.zero b

/-- `compareSemver`, exhausted-right side. -/
def compareZerosR : List JSNum → JSNum
  | [] => JSNum.zero
  | a :: as => if JSNum.eqv a JSNum.zero then compareZerosR as else JSNum.sub a JSNum.zero

/-- `compareSemver` from the source: walk both component lists to the
longer length, treating missing components as `0`; return the first
nonzero difference (only its sign is ever used by the caller). -/
def compareSemver : List JSNum → List JSNum → JSNum
  | [], bs => compareZerosL bs
  | a :: as, [] => compareZerosR (a :: as)
  | a :: as, b :: bs =>
    if JSNum.eqv a b then compareSemver as bs else JSNum.sub a b

theorem compareZeros_mant_swap (l : List JSNum) :
    (compareZerosL l).mant = -(compareZerosR l).mant := by
  induction l with
  | nil => simp [compareZerosL, compareZerosR, JSNum.zero]
  | cons b bs ih =>
    simp only [compareZerosL, compareZerosR]
    by_cases h : JSNum.eqv JSNum.zero b
    · rw [if_pos h, if_pos (JSNum.eqv_symm h)]
      exact ih
    · rw [if_neg h, if_neg (fun hh => h (JSNum.eqv_symm hh))]
      simp only [JSNum.sub]
      ring

theorem compareSemver_mant_swap (a b : List JSNum) :
    (compareSemver a b).mant = -(compareSemver b a).mant := by
  induction a generalizing b with
  | nil =>
    cases b with
    | nil => simp [compareSemver, compareZerosL, JSNum.zero]
    | cons b bs =>
      show (compareZerosL (b :: bs)).mant = -(compareZerosR (b :: bs)).mant
      exact compareZeros_mant_swap _
  | cons a as ih =>
    cases b with
    | nil =>
      show (compareZerosR (a :: as)).mant = -(compareZerosL (a :: as)).mant
      rw [compareZeros_mant_swap]
      ring
    | cons b bs =>
      show (if JSNum.eqv a b then compareSemver as bs else JSNum.sub a b).mant =
        -(if JSNum.eqv b a then compareSemver bs as else JSNum.sub b a).mant
      by_cases h : JSNum.eqv a b
      · rw [if_pos h, if_pos (JSNum.eqv_symm h)]
        exact ih bs
      · rw [if_neg h, if_neg (fun hh => h (JSNum.eqv_symm hh))]
        simp only [JSNum.sub]
        ring

/-! ### Remote tags and latest-tag resolution -/

/-- Errors are carried as their message strings, as in the source where
every failure is a thrown `Error(message)`. -/
abbrev Err := String

/-- A parsed candidate line of `git ls-remote --tags --refs` output. -/
structure TagCandidate where
  hash : String
  tag : String
  semver : List JSNum
deriving DecidableEq

/-- One line of `ls-remote` output to a candidate: split on whitespace
into `[hash, ref]`, strip the `refs/tags/` prefix, drop the line when
hash or tag is missing/empty or the tag does not parse as a semver. -/
def lineToCandidate (line : String) : Option TagCandidate :=
  let fs := splitWS line
  match fs.get? 0, (fs.get? 1).map (fun r => replaceFirst r "refs/tags/" "") with
  | some h, some t =>
    if h = "" ∨ t = "" then none
    else (parseSemver t).map (fun sv => ⟨h, t, sv⟩)
  | _, _ => none

/-- All candidates of a raw `ls-remote --tags --refs` output: split into
lines, trim each, drop empties, parse each line. -/
def tagCandidates (raw : String) : List TagCandidate :=
  (((splitOnChar '\n' raw).map jsTrim).filter (fun l => l ≠ "")).filterMap lineToCandidate

/-- Ordering used by `candidates.sort((a, b) => compareSemver(a.semver, b.semver))`. -/
def semverLe (a b : TagCandidate) : Prop :=
  (compareSemver a.semver b.semver).mant ≤ 0

instance (a b : TagCandidate) : Decidable (semverLe a b) := by
  unfold semverLe
  infer_instance

/-- `resolveLatestTag` (pure part): on empty output or no candidates
return nothing, otherwise sort candidates by semver and take the last
(the maximum), returning its `(tag, hash)`. -/
def latestFromRaw (raw : String) : Option (String × String) :=
  if raw = "" then none
  else
    let candidates := tagCandidates raw
    if candidates = [] then none
    else
      ((candidates.insertionSort semverLe).getLast?).map (fun c => (c.tag, c.hash))

/-- `resolveHeadHash` (pure part): first whitespace-separated field of
the `ls-remote <url> HEAD` output; errors when absent. -/
def headHashFromRaw (repoUrl raw : String) : Except Err String :=
  match (splitWS raw).get? 0 with
  | some h => if h = "" then .error ("Unable to resolve HEAD for " ++ repoUrl) else .ok h
  | none => .error ("Unable to resolve HEAD for " ++ repoUrl)

/-- `resolveRefHash` (pure part): `null` on empty output, else the first
whitespace-separated field. -/
def refHashFromRaw (raw : String) : Option String :=
  if raw = "" then none
  else (splitWS raw).get? 0

/-! ### GitHub source strings -/

/-- `isNonEmptyString`: a string whose trimmed form is nonempty. -/
def isNonEmptyString (s : String) : Bool :=
  jsTrim s ≠ ""

/-- `looksLikeCommitHash`: `/^[a-f0-9]{7,40}$/iu`. -/
def isHexDigitCI (c : Char) : Bool :=
  c.isDigit || ('a' ≤ c && c ≤ 'f') || ('A' ≤ c && c ≤ 'F')

def looksLikeCommitHash (value : String) : Bool :=
  decide (7 ≤ value.data.length) && decide (value.data.length ≤ 40) &&
    value.data.all isHexDigitCI

structure GithubSource where
  owner : String
  repo : String
  ref : String
  url : String
deriving DecidableEq

/-- `parseGithubSource`: require the `github:` scheme, split the rest at
the first `@` into `owner/repo` and an optional ref (defaulting to
`"latest"`); owner and repo must be nonempty. -/
def parseGithubSource (source : String) : Except Err GithubSource :=
  let trimmed := jsTrim source
  if ¬ strStartsWith trimmed "github:" then
    .error ("Unsupported source: " ++ source)
  else
    let withoutScheme := String.mk (trimmed.data.drop 7)
    let atParts := splitOnChar '@' withoutScheme
    let repoPart := (atParts.get? 0).getD ""
    let refPart := atParts.get? 1
    let slashParts := splitOnChar '/' repoPart
    let owner := (slashParts.get? 0).getD ""
    let repo? := slashParts.get? 1
    match repo? with
    | none => .error ("Invalid GitHub source (expected github:owner/repo@ref): " ++ source)
    | some repo =>
      if ¬ (isNonEmptyString owner ∧ isNonEmptyString repo) then
        .error ("Invalid GitHub source (expected github:owner/repo@ref): " ++ source)
      else
        let ref := match refPart with
          | some r => if isNonEmptyString r then r else "latest"
          | none => "latest"
        .ok ⟨owner, repo, ref, "https://github.com/" ++ owner ++ "/" ++ repo ++ ".git"⟩

/-! ### Paths

Absolute paths are modelled as lists of segments (the part below the
filesystem root).  `path.join` is append; `path.resolve` / `path.relative`
on the already-normalized paths the tool manipulates are segment
operations.  Rendering joins segments with `/`. -/

abbrev Path := List String

def renderRel (p : Path) : String := joinSep "/" p

def renderAbs (p : Path) : String := "/" ++ joinSep "/" p

/-- Split a configured path string into segments (ignoring duplicate
separators, which path normalization collapses). -/
def strToPath (s : String) : Path :=
  (splitOnChar '/' s).filter (fun seg => seg ≠ "")

def isAbsolute (s : String) : Bool := strStartsWith s "/"

/-- `resolveFrom(baseDir, targetPath)`: absolute targets win, relative
targets resolve against the base (dot-segment-free inputs assumed). -/
def resolveFrom (base : Path) (target : String) : Path :=
  if isAbsolute target then strToPath target else base ++ strToPath target

/-- `path.resolve(base, target)` as used for domain roots; behaves like
`resolveFrom` on the normalized inputs in scope. -/
def jsResolvePath (base : Path) (target : String) : Path :=
  if isAbsolute target then strToPath target else base ++ strToPath target

def commonPrefLen : Path → Path → Nat
  | a :: as, b :: bs => if a = b then commonPrefLen as bs + 1 else 0
  | _, _ => 0

/-- Segments of `path.relative(base, target)`. -/
def relSegs (base target : Path) : Path :=
  let n := commonPrefLen base target
  (base.drop n).map (fun _ => "..") ++ target.drop n

def pathRelative (base target : Path) : String :=
  joinSep "/" (relSegs base target)

/-- `normalizePath`: replace every backslash by a forward slash. -/
def normalizePath (s : String) : String :=
  String.mk (s.data.map (fun c => if c = '\\' then '/' else c))

/-- `path.basename` of a segment path. -/
def pathBasename (p : Path) : String := p.getLast?.getD ""

/-- `path.dirname` of a segment path. -/
def pathDirname (p : Path) : Path := p.dropLast

/-- `sanitizeCacheSegment`: replace each `/` or `\` by `__`. -/
def sanitizeCacheSegment (s : String) : String :=
  String.mk (s.data.flatMap (fun c => if c = '/' ∨ c = '\\' then ['_', '_'] else [c]))

/-! ### Directory trees and markdown collection -/

mutual
inductive FSNode where
  | file : FSNode
  | other : FSNode
  | dir : FSEntries → FSNode
inductive FSEntries where
  | nil : FSEntries
  | cons : String → FSNode → FSEntries → FSEntries
end

/-- Collect (unsorted) the `.md` files below `cur`, in the readdir order
given by the entry list.  The source gathers with an explicit worklist;
since `collectMarkdownFiles` sorts the result, only the multiset of
gathered paths matters (made precise by `collectSorted_perm_invariant`),
so the gather is written by structural recursion here. -/
def FSEntries.mdFiles : FSEntries → Path → List Path
  | .nil, _ => []
  | .cons name node rest, cur =>
    (match node with
     | .dir es => FSEntries.mdFiles es (cur ++ [name])
     | .file => if toLowerStr (extname name) = ".md" then [cur ++ [name]] else []
     | .other => []) ++ FSEntries.mdFiles rest cur

def FSNode.mdFiles (t : FSNode) (cur : Path) : List Path :=
  match t with
  | .file => []
  | .other => []
  | .dir es => es.mdFiles cur

/-- What `statSync`/`readdirSync` find at a directory path. -/
inductive DirLookup where
  | missing : DirLookup
  | notDir : DirLookup
  | tree : FSNode → DirLookup

/-- The sort of `collectMarkdownFiles`: compare the `/`-normalized paths
relative to the root with `localeCompare`. -/
def relLe (root : Path) (a b : Path) : Prop :=
  localeLe (normalizePath (pathRelative root a)) (normalizePath (pathRelative root b))

instance (root : Path) (a b : Path) : Decidable (relLe root a b) := by
  unfold relLe
  infer_instance

def collectSorted (root : Path) (t : FSNode) : List Path :=
  (t.mdFiles root).insertionSort (relLe root)

/-- `collectMarkdownFiles`: `ensureDirectoryExists`, then gather all
`.md` files (extension compared lowercased) below the root and sort by
relative path with `localeCompare`. -/
def collectMarkdownFiles (dirAt : Path → DirLookup) (rootDir : Path) :
    Except Err (List Path) :=
  match dirAt rootDir with
  | .missing => .error ("Missing directory: " ++ renderAbs rootDir)
  | .notDir => .error ("Not a directory: " ++ renderAbs rootDir)
  | .tree t => .ok (collectSorted rootDir t)

/-! ### Project rulesets and environments -/

def DEFAULT_OUTPUT : String := "AGENTS.md"

/-- The validated configuration object (`ProjectRuleset`).  Optional
fields stay optional here: `composeRuleset` itself re-applies the
defaults (`output ?? DEFAULT_OUTPUT`, `global !== false`). -/
structure ProjectRuleset where
  source : String
  global? : Option Bool := none
  domains? : Option (List String) := none
  extra? : Option (List String) := none
  output? : Option String := none
deriving DecidableEq

/-- Outcomes of the `git` subprocess calls and cache-directory probes
made while resolving a GitHub source. -/
structure GitEnv where
  cacheRoot : Path
  lsRemoteTags : Except Err String
  lsRemoteHead : Except Err String
  lsRemoteRef : String → Except Err String
  cloneOk : String → Bool
  fetchOk : String → Bool
  cacheDirExists : Path → Bool

/-- The environment a `composeRuleset` invocation runs against: the
outcome of reading the ruleset file, the git world, and the filesystem
(directory trees, file existence, file contents), plus the contents of
the bundled `tools/tool-rules.md`. -/
structure Env where
  ruleset : Except Err ProjectRuleset
  git : GitEnv
  dirAt : Path → DirLookup
  pathExists : Path → Bool
  readFile : Path → Except Err String
  toolRules : String

/-- The module-level `TOOL_RULES` constant:
`normalizeTrailingWhitespace(readFileSync(TOOL_RULES_PATH))`. -/
def TOOL_RULES (env : Env) : String :=
  normalizeTrailingWhitespace env.toolRules

/-- `ensureDirectoryExists`: missing path and non-directory are distinct
errors. -/
def ensureDirectoryExists (dirAt : Path → DirLookup) (dirPath : Path) :
    Except Err Unit :=
  match dirAt dirPath with
  | .missing => .error ("Missing directory: " ++ renderAbs dirPath)
  | .notDir => .error ("Not a directory: " ++ renderAbs dirPath)
  | .tree _ => .ok ()

/-! ### GitHub source resolution -/

/-- Trace of the git commands a resolution performs (besides read-only
`ls-remote` calls). -/
inductive GitOp where
  | rmDir : Path → GitOp
  | clone : String → Path → GitOp
  | gitInit : Path → GitOp
  | remoteAdd : String → Path → GitOp
  | fetch : String → Path → GitOp
  | checkout : Path → GitOp
deriving DecidableEq

/-- `fetchCommit`: init an empty repository, add the remote, shallow
fetch the specific commit, check out `FETCH_HEAD`.  The fetch is the
step that fails when the remote does not serve the commit. -/
def fetchCommitOps (g : GitEnv) (repoUrl commitHash : String) (destination : Path) :
    List GitOp × Except Err Unit :=
  if g.fetchOk commitHash then
    ([.gitInit destination, .remoteAdd repoUrl destination,
      .fetch commitHash destination, .checkout destination], .ok ())
  else
    ([.gitInit destination, .remoteAdd repoUrl destination, .fetch commitHash destination],
      .error ("git fetch failed: " ++ commitHash))

/-- Lines 553-560 of the source: determine the resolved ref name and
commit hash.  `ref == "latest"` consults the remote tag list; a
candidate's tag and hash win outright; otherwise `HEAD` (for `latest`)
or the literal ref is resolved by `ls-remote`. -/
def resolveRefAndHash (g : GitEnv) (url ref : String) :
    Except Err (String × Option String) :=
  match (if ref = "latest" then (g.lsRemoteTags).map latestFromRaw else .ok none) with
  | .error e => .error e
  | .ok resolved =>
    let resolvedRef := match resolved with
      | some (t, _) => t
      | none => if ref = "latest" then "HEAD" else ref
    match resolved with
    | some (_, h) => .ok (resolvedRef, some h)
    | none =>
      if resolvedRef = "HEAD" then
        match g.lsRemoteHead with
        | .error e => .error e
        | .ok raw =>
          match headHashFromRaw url raw with
          | .error e => .error e
          | .ok h => .ok (resolvedRef, some h)
      else
        match g.lsRemoteRef resolvedRef with
        | .error e => .error e
        | .ok raw => .ok (resolvedRef, refHashFromRaw raw)

/-- The `catch` block of `resolveGithubRulesRoot`'s clone attempt:
fall back to `fetchCommit` when the resolved hash (or, failing that,
the literal ref) looks like a commit hash, else rethrow. -/
def cloneFallback (g : GitEnv) (url resolvedRef : String) (resolvedHash : Option String)
    (cacheDir : Path) : List GitOp × Except Err Unit :=
  match resolvedHash with
  | some h =>
    if looksLikeCommitHash h then fetchCommitOps g url h cacheDir
    else if looksLikeCommitHash resolvedRef then fetchCommitOps g url resolvedRef cacheDir
    else ([], .error ("git clone failed: " ++ resolvedRef))
  | none =>
    if looksLikeCommitHash resolvedRef then fetchCommitOps g url resolvedRef cacheDir
    else ([], .error ("git clone failed: " ++ resolvedRef))

/-- The cache-population step of `resolveGithubRulesRoot`: remove the
cache directory under `--refresh`; on a cache miss attempt the shallow
branch/tag clone, falling back to `cloneFallback` when it fails. -/
def githubCacheStep (g : GitEnv) (url resolvedRef : String) (resolvedHash : Option String)
    (cacheDir : Path) (refresh : Bool) : List GitOp × Except Err Unit :=
  if g.cacheDirExists cacheDir ∧ ¬ refresh then
    ((if refresh ∧ g.cacheDirExists cacheDir then [GitOp.rmDir cacheDir] else []),
      .ok ())
  else if g.cloneOk resolvedRef then
    ((if refresh ∧ g.cacheDirExists cacheDir then [GitOp.rmDir cacheDir] else []) ++
      [.clone resolvedRef cacheDir], .ok ())
  else
    ((if refresh ∧ g.cacheDirExists cacheDir then [GitOp.rmDir cacheDir] else []) ++
      GitOp.clone resolvedRef cacheDir ::
        (cloneFallback g url resolvedRef resolvedHash cacheDir).1,
      (cloneFallback g url resolvedRef resolvedHash cacheDir).2)

/-- The tail of `resolveGithubRulesRoot`: populate the cache, then
require the checkout to contain a `rules/` directory. -/
def githubFinish (g : GitEnv) (dirAt : Path → DirLookup) (url resolvedRef : String) (resolvedHash : Option String)
    (cacheDir : Path) (refresh : Bool) : List GitOp × Except Err (Path × String) :=
  match (githubCacheStep g url resolvedRef resolvedHash cacheDir refresh).2 with
  | .error e => ((githubCacheStep g url resolvedRef resolvedHash cacheDir refresh).1, .error e)
  | .ok _ =>
    match ensureDirectoryExists dirAt (cacheDir ++ ["rules"]) with
    | .error e =>
      ((githubCacheStep g url resolvedRef resolvedHash cacheDir refresh).1, .error e)
    | .ok _ =>
      ((githubCacheStep g url resolvedRef resolvedHash cacheDir refresh).1,
        .ok (cacheDir ++ ["rules"], resolvedRef))

/-- `resolveGithubRulesRoot`: parse the source, resolve ref and hash,
reject unresolvable non-hash refs, locate the cache directory (keyed by
owner, repo and sanitized ref, or the resolved hash for `HEAD`), and
run the cache/clone/rules steps. -/
def resolveGithubRulesRoot (g : GitEnv) (dirAt : Path → DirLookup) (source : String) (refresh : Bool) :
    List GitOp × Except Err (Path × String) :=
  match parseGithubSource source with
  | .error e => ([], .error e)
  | .ok parsed =>
    match resolveRefAndHash g parsed.url parsed.ref with
    | .error e => ([], .error e)
    | .ok (resolvedRef, resolvedHash) =>
      if resolvedHash = none ∧ ¬ looksLikeCommitHash resolvedRef then
        ([], .error ("Unable to resolve ref " ++ resolvedRef ++ " for " ++ parsed.url))
      else
        githubFinish g dirAt parsed.url resolvedRef resolvedHash
          (g.cacheRoot ++ [parsed.owner, parsed.repo,
            if resolvedRef = "HEAD" then sanitizeCacheSegment (resolvedHash.getD resolvedRef)
            else sanitizeCacheSegment resolvedRef]) refresh

/-- `resolveLocalRulesRoot`: resolve relative to the ruleset directory,
require existence, append `rules` unless the path already ends in it,
and require the result to be a directory. -/
def resolveLocalRulesRoot (exists? : Path → Bool) (dirAt : Path → DirLookup) (rulesetDir : Path) (source : String) :
    Except Err Path :=
  let resolvedSource := resolveFrom rulesetDir source
  if ¬ exists? resolvedSource then
    .error ("Missing source path: " ++ renderAbs resolvedSource)
  else
    let candidate :=
      if pathBasename resolvedSource = "rules" then resolvedSource
      else resolvedSource ++ ["rules"]
    match ensureDirectoryExists dirAt candidate with
    | .error e => .error e
    | .ok _ => .ok candidate

/-- `resolveRulesRoot`: GitHub sources via the remote resolver (with a
resolved ref), local sources via the local resolver. -/
def resolveRulesRoot (g : GitEnv) (dirAt : Path → DirLookup) (exists? : Path → Bool) (rulesetDir : Path) (source : String) (refresh : Bool) :
    List GitOp × Except Err (Path × Option String) :=
  if strStartsWith source "github:" then
    let r := resolveGithubRulesRoot g dirAt source refresh
    (r.1, r.2.map (fun pr => (pr.1, some pr.2)))
  else
    ([], (resolveLocalRulesRoot exists? dirAt rulesetDir source).map (fun p => (p, none)))

/-! ### Rule collection and composition -/

/-- `addRulePaths`: walk the collected paths in order through the shared
seen-set (`st.2`), skipping already-seen resolved paths, requiring each
new path to exist, and appending it to the resolved list (`st.1`).
`path.resolve` on the already-absolute, normalized paths that reach this
function is the identity in the segment model. -/
def addRulePaths (exists? : Path → Bool) (rulePaths : List Path)
    (st : List Path × List Path) : Except Err (List Path × List Path) :=
  match rulePaths with
  | [] => .ok st
  | p :: rest =>
    if p ∈ st.2 then addRulePaths exists? rest st
    else if exists? p then addRulePaths exists? rest (st.1 ++ [p], p :: st.2)
    else .error ("Missing file: " ++ renderAbs p)

/-- The global stage of rule collection (lines 700-702): unless
disabled, collect `rules/global` and feed it through the shared state. -/
def collectGlobalStep (dirAt : Path → DirLookup) (exists? : Path → Bool) (r : ProjectRuleset) (rulesRoot : Path)
    (st : List Path × List Path) : Except Err (List Path × List Path) :=
  if r.global? ≠ some false then
    match collectMarkdownFiles dirAt (rulesRoot ++ ["global"]) with
    | .error e => .error e
    | .ok files => addRulePaths exists? files st
  else .ok st

/-- One domain stage (lines 704-708): collect
`rules/domains/<domain>` and feed it through the shared state. -/
def collectDomainStep (dirAt : Path → DirLookup) (exists? : Path → Bool) (rulesRoot : Path)
    (st : List Path × List Path) (d : String) : Except Err (List Path × List Path) :=
  match collectMarkdownFiles dirAt (jsResolvePath (rulesRoot ++ ["domains"]) d) with
  | .error e => .error e
  | .ok files => addRulePaths exists? files st

/-- Lines 694-712 of `composeRuleset`: collect global (unless disabled),
then each configured domain in order, then the extra paths, all through
one shared de-duplication state. -/
def collectResolvedRules (dirAt : Path → DirLookup) (exists? : Path → Bool) (rulesetDir : Path) (r : ProjectRuleset)
    (rulesRoot : Path) : Except Err (List Path) :=
  match collectGlobalStep dirAt exists? r rulesRoot ([], []) with
  | .error e => .error e
  | .ok st1 =>
    match (r.domains?.getD []).foldlM (collectDomainStep dirAt exists? rulesRoot) st1 with
    | .error e => .error e
    | .ok st2 =>
      match addRulePaths exists? ((r.extra?.getD []).map (resolveFrom rulesetDir)) st2 with
      | .error e => .error e
      | .ok st3 => .ok st3.1

/-- `formatRuleSourcePath`: rules under the resolved rules root of a
GitHub source render as `github:owner/repo@ref/relative/path` (relative
to the cache repo root); everything else renders relative to the
ruleset directory.  The source's string `startsWith` test on rendered
paths is the segment-prefix test here. -/
def formatRuleSourcePath (rulePath rulesRoot rulesetDir : Path) (source : String)
    (resolvedRef : Option String) : Except Err String :=
  if rulesRoot.isPrefixOf rulePath ∧ strStartsWith source "github:" then
    match parseGithubSource source with
    | .error e => .error e
    | .ok parsed =>
      let cacheRepoRoot := pathDirname rulesRoot
      let relativePath := normalizePath (pathRelative cacheRepoRoot rulePath)
      let refToUse := resolvedRef.getD parsed.ref
      .ok ("github:" ++ parsed.owner ++ "/" ++ parsed.repo ++ "@" ++ refToUse ++ "/" ++ relativePath)
  else
    .ok (normalizePath (pathRelative rulesetDir rulePath))

/-- Lines 714-718: read each resolved rule, strip trailing whitespace,
and prepend its `Source:` attribution line. -/
def buildParts (readFile : Path → Except Err String) (rulesetDir rulesRoot : Path) (source : String)
    (resolvedRef : Option String) (rules : List Path) : Except Err (List String) :=
  rules.mapM (fun rulePath =>
    match readFile rulePath with
    | .error e => .error e
    | .ok body =>
      match formatRuleSourcePath rulePath rulesRoot rulesetDir source resolvedRef with
      | .error e => .error e
      | .ok sourcePath =>
        .ok ("Source: " ++ sourcePath ++ "\n\n" ++ normalizeTrailingWhitespace body))

def LINT_HEADER : String := "<!-- markdownlint-disable MD025 -->"

/-- Line 722: the composed document. -/
def assembleOutput (toolRulesConst : String) (parts : List String) : String :=
  LINT_HEADER ++ "\n" ++ joinSep "\n\n" (normalizeTrailingWhitespace toolRulesConst :: parts) ++ "\n"

structure ComposeOptions where
  refresh : Bool := false
  dryRun : Bool := false
deriving DecidableEq

/-- Filesystem mutations `composeRuleset` can perform on the project:
creating the output directory and writing the output file. -/
inductive WriteEff where
  | mkdirp : Path → WriteEff
  | writeFile : Path → String → WriteEff
deriving DecidableEq

/-- `composeRuleset`: read the ruleset, resolve the rules root, collect
the rule list, read every fragment, assemble the document, and (unless
`dryRun`) create the output directory and write the file; return the
output path relative to the root directory.  The effect list holds
exactly the project-directory writes the call performs; the source
performs them only at the very end, after the full document is
assembled.  (Cache-directory effects of source resolution are traced
separately by `resolveRulesRoot`.) -/
def composeRuleset (env : Env) (rulesetPath rootDir : Path) (opts : ComposeOptions) :
    List WriteEff × Except Err String :=
  let rulesetDir := pathDirname rulesetPath
  match env.ruleset with
  | .error e => ([], .error e)
  | .ok projectRuleset =>
    let outputFileName := projectRuleset.output?.getD DEFAULT_OUTPUT
    let outputPath := resolveFrom rulesetDir outputFileName
    match (resolveRulesRoot env.git env.dirAt env.pathExists rulesetDir projectRuleset.source opts.refresh).2 with
    | .error e => ([], .error e)
    | .ok (rulesRoot, resolvedRef) =>
      match collectResolvedRules env.dirAt env.pathExists rulesetDir projectRuleset rulesRoot with
      | .error e => ([], .error e)
      | .ok resolvedRules =>
        match buildParts env.readFile rulesetDir rulesRoot projectRuleset.source resolvedRef resolvedRules with
        | .error e => ([], .error e)
        | .ok parts =>
          let output := assembleOutput (TOOL_RULES env) parts
          let effs : List WriteEff :=
            if opts.dryRun then []
            else [.mkdirp (pathDirname outputPath), .writeFile outputPath output]
          (effs, .ok (normalizePath (pathRelative rootDir outputPath)))

/-! ### De-duplication lemmas -/

/-- First-occurrence de-duplication relative to an initial seen set:
the behaviour `addRulePaths` implements with its shared `Set`. -/
def dedupNew {α : Type} [DecidableEq α] (seen : List α) : List α → List α
  | [] => []
  | p :: rest => if p ∈ seen then dedupNew seen rest else p :: dedupNew (p :: seen) rest

/-- Keep the first occurrence of every element. -/
def dedupFirst {α : Type} [DecidableEq α] (l : List α) : List α :=
  dedupNew [] l

theorem mem_dedupNew {α : Type} [DecidableEq α] {seen l : List α} {a : α} :
    a ∈ dedupNew seen l ↔ a ∈ l ∧ a ∉ seen := by
  induction l generalizing seen with
  | nil => simp [dedupNew]
  | cons p rest ih =>
    by_cases hp : p ∈ seen
    · rw [dedupNew, if_pos hp, ih]
      rcases eq_or_ne a p with rfl | hne
      · simp [hp]
      · simp [hne]
    · rw [dedupNew, if_neg hp]
      rcases eq_or_ne a p with rfl | hne
      · simp [hp]
      · simp only [List.mem_cons, hne, false_or, ih, or_false]

theorem nodup_dedupNew {α : Type} [DecidableEq α] (seen l : List α) :
    (dedupNew seen l).Nodup := by
  induction l generalizing seen with
  | nil => simp [dedupNew]
  | cons p rest ih =>
    rw [dedupNew]
    by_cases hp : p ∈ seen
    · rw [if_pos hp]
      exact ih seen
    · rw [if_neg hp]
      refine List.Nodup.cons (fun hmem => ?_) (ih (p :: seen))
      exact (mem_dedupNew.mp hmem).2 (List.mem_cons_self p seen)

theorem dedupNew_congr {α : Type} [DecidableEq α] {s₁ s₂ : List α} (l : List α)
    (h : ∀ x, x ∈ s₁ ↔ x ∈ s₂) : dedupNew s₁ l = dedupNew s₂ l := by
  induction l generalizing s₁ s₂ with
  | nil => rfl
  | cons p rest ih =>
    rw [dedupNew, dedupNew]
    by_cases hp : p ∈ s₁
    · rw [if_pos hp, if_pos ((h p).mp hp)]
      exact ih h
    · rw [if_neg hp, if_neg (fun hq => hp ((h p).mpr hq))]
      refine congrArg _ (ih fun x => ?_)
      simp only [List.mem_cons]
      exact or_congr Iff.rfl (h x)

theorem dedupNew_append {α : Type} [DecidableEq α] (seen l₁ l₂ : List α) :
    dedupNew seen (l₁ ++ l₂) = dedupNew seen l₁ ++ dedupNew (l₁ ++ seen) l₂ := by
  induction l₁ generalizing seen with
  | nil => simp [dedupNew]
  | cons p rest ih =>
    rw [List.cons_append, dedupNew, dedupNew]
    by_cases hp : p ∈ seen
    · rw [if_pos hp, if_pos hp, ih]
      refine congrArg _ (dedupNew_congr l₂ fun x => ?_)
      simp only [List.mem_append, List.mem_cons]
      rcases eq_or_ne x p with rfl | hne
      · simp [hp]
      · tauto
    · rw [if_neg hp, if_neg hp, ih, List.cons_append]
      refine congrArg _ (congrArg _ (dedupNew_congr l₂ fun x => ?_))
      simp only [List.mem_append, List.mem_cons]
      tauto

/-! ### `addRulePaths` lemmas -/

theorem exceptOkBind {α β : Type} (a : α) (f : α → Except Err β) :
    (Except.ok a >>= f) = f a := rfl

theorem addRulePaths_ok {exists? : Path → Bool} :
    ∀ {l : List Path} {st st' : List Path × List Path},
      addRulePaths exists? l st = .ok st' →
      st'.1 = st.1 ++ dedupNew st.2 l ∧ (∀ x, x ∈ st'.2 ↔ x ∈ l ∨ x ∈ st.2)
  | [], st, st', h => by
    cases h
    simp [dedupNew]
  | p :: rest, st, st', h => by
    rw [addRulePaths] at h
    by_cases hp : p ∈ st.2
    · rw [if_pos hp] at h
      obtain ⟨h1, h2⟩ := addRulePaths_ok h
      rw [dedupNew, if_pos hp]
      refine ⟨h1, fun x => ?_⟩
      rw [h2]
      simp only [List.mem_cons]
      rcases eq_or_ne x p with rfl | hne
      · tauto
      · tauto
    · rw [if_neg hp] at h
      by_cases he : exists? p
      · rw [if_pos he] at h
        obtain ⟨h1, h2⟩ := addRulePaths_ok h
        constructor
        · rw [h1, dedupNew, if_neg hp]
          simp
        · intro x
          rw [h2]
          simp only [List.mem_cons]
          tauto
      · rw [if_neg he] at h
        cases h

/-- Chaining `addRulePaths` over several collected lists: the resolved
list extends by the first-occurrence de-duplication of the concatenation,
in order. -/
theorem addRulePaths_chain {exists? : Path → Bool} :
    ∀ {lls : List (List Path)} {st st' : List Path × List Path},
      lls.foldlM (fun st l => addRulePaths exists? l st) st = .ok st' →
      st'.1 = st.1 ++ dedupNew st.2 lls.flatten ∧
        (∀ x, x ∈ st'.2 ↔ x ∈ lls.flatten ∨ x ∈ st.2)
  | [], st, st', h => by
    cases h
    simp [dedupNew]
  | l :: lls, st, st', h => by
    rw [List.foldlM_cons] at h
    cases hstep : addRulePaths exists? l st with
    | error e =>
      rw [hstep] at h
      cases h
    | ok st1 =>
      rw [hstep, exceptOkBind] at h
      obtain ⟨g1, g2⟩ := addRulePaths_ok hstep
      obtain ⟨h1, h2⟩ := addRulePaths_chain h
      constructor
      · rw [h1, g1, List.flatten_cons, dedupNew_append, List.append_assoc]
        refine congrArg _ (congrArg _ (dedupNew_congr _ fun x => ?_))
        rw [g2]
        simp only [List.mem_append]
      · intro x
        rw [h2, g2, List.flatten_cons]
        simp only [List.mem_append]
        tauto

/-! ### Sorted-permutation lemmas -/

instance (root : Path) : IsTotal Path (relLe root) :=
  ⟨fun x y => localeLe_total (normalizePath (pathRelative root x)) (normalizePath (pathRelative root y))⟩

instance (root : Path) : IsTrans Path (relLe root) :=
  ⟨fun _ _ _ h1 h2 => localeLe_trans h1 h2⟩

theorem cons_append_comm_of_all_eq {α : Type} (a : α) :
    ∀ (u : List α), (∀ x ∈ u, x = a) → ∀ v, a :: (u ++ v) = u ++ a :: v
  | [], _, v => rfl
  | b :: u', h, v => by
    have hb : b = a := h b (List.mem_cons_self b u')
    subst hb
    have ih := cons_append_comm_of_all_eq b u' (fun x hx => h x (List.mem_cons_of_mem b hx)) v
    show b :: (b :: (u' ++ v)) = b :: (u' ++ b :: v)
    rw [ih]

/-- Two sorted permutations of each other are equal, assuming
antisymmetry only on the elements involved (the relation need not be
globally antisymmetric). -/
theorem eq_of_perm_of_pairwise_on {α : Type} {r : α → α → Prop} :
    ∀ {l₁ l₂ : List α}, List.Perm l₁ l₂ → l₁.Pairwise r → l₂.Pairwise r →
      (∀ a ∈ l₁, ∀ b ∈ l₁, r a b → r b a → a = b) → l₁ = l₂
  | [], l₂, h, _, _, _ => h.nil_eq
  | a :: t, l₂, h, hs₁, hs₂, anti => by
    have ha : a ∈ l₂ := h.subset (List.mem_cons_self a t)
    obtain ⟨u, v, rfl⟩ := List.append_of_mem ha
    have hp' : List.Perm t (u ++ v) := (List.perm_cons a).mp (h.trans List.perm_middle)
    have hsub : List.Sublist (u ++ v) (u ++ a :: v) := (List.sublist_cons_self a v).append_left u
    have ht : t = u ++ v :=
      eq_of_perm_of_pairwise_on hp' (List.pairwise_cons.mp hs₁).2 (hs₂.sublist hsub)
        (fun x hx y hy => anti x (List.mem_cons_of_mem a hx) y (List.mem_cons_of_mem a hy))
    subst ht
    refine cons_append_comm_of_all_eq a u (fun x hx => ?_) v
    have hxa : r x a :=
      (List.pairwise_append.mp hs₂).2.2 x hx a (List.mem_cons_self a v)
    have hax : r a x :=
      (List.pairwise_cons.mp hs₁).1 x (List.mem_append_left v hx)
    exact anti x (List.mem_cons_of_mem a (List.mem_append_left v hx)) a
      (List.mem_cons_self a _) hxa hax

/-- The result of `collectMarkdownFiles`'s sort depends only on the
multiset of gathered files, as long as distinct files have distinct
relative path renderings. -/
theorem insertionSortRel_congr (root : Path) {l₁ l₂ : List Path} (h : List.Perm l₁ l₂)
    (hinj : ∀ a ∈ l₁, ∀ b ∈ l₁,
      normalizePath (pathRelative root a) = normalizePath (pathRelative root b) → a = b) :
    l₁.insertionSort (relLe root) = l₂.insertionSort (relLe root) := by
  refine eq_of_perm_of_pairwise_on
    ((List.perm_insertionSort _ l₁).trans (h.trans (List.perm_insertionSort _ l₂).symm))
    (List.sorted_insertionSort _ l₁) (List.sorted_insertionSort _ l₂)
    (fun a ha b hb hab hba => ?_)
  have ha' : a ∈ l₁ := (List.mem_insertionSort _).mp ha
  have hb' : b ∈ l₁ := (List.mem_insertionSort _).mp hb
  exact hinj a ha' b hb' (localeLe_antisymm hab hba)

/-- In a `Pairwise r` list with `r` reflexive, every element is related
to the last element. -/
theorem pairwise_rel_getLast {α : Type} {r : α → α → Prop} (hrefl : ∀ a, r a a) :
    ∀ {l : List α}, l.Pairwise r → ∀ {last}, l.getLast? = some last → ∀ x ∈ l, r x last
  | [], _, last, h, x, hx => by cases h
  | [a], _, last, h, x, hx => by
    obtain rfl : a = last := by simpa using h
    obtain rfl : x = a := by simpa using hx
    exact hrefl _
  | a :: b :: t, hp, last, h, x, hx => by
    have h' : (b :: t).getLast? = some last := by
      simpa using h
    rcases List.mem_cons.mp hx with rfl | hx'
    · exact (List.pairwise_cons.mp hp).1 last (List.mem_of_getLast?_eq_some h')
    · exact pairwise_rel_getLast hrefl (List.pairwise_cons.mp hp).2 h' x hx'

/-! ### Order properties of `compareSemver` -/

theorem JSNum.val_le_iff (a b : JSNum) :
    a.val ≤ b.val ↔ a.mant * 10 ^ b.negExp ≤ b.mant * 10 ^ a.negExp := by
  unfold JSNum.val
  rw [div_le_div_iff₀ (by positivity) (by positivity)]
  constructor
  · intro h
    exact_mod_cast h
  · intro h
    exact_mod_cast h

theorem JSNum.val_eq_iff (a b : JSNum) : a.val = b.val ↔ a.eqv b := by
  unfold JSNum.val JSNum.eqv
  rw [div_eq_div_iff (by positivity) (by positivity)]
  constructor
  · intro h
    exact_mod_cast h
  · intro h
    exact_mod_cast h

theorem JSNum.sub_mant_nonpos (a b : JSNum) :
    (JSNum.sub a b).mant ≤ 0 ↔ a.val ≤ b.val := by
  rw [JSNum.val_le_iff]
  simp [JSNum.sub, sub_nonpos]

theorem compareSemver_nil_right : ∀ (a : List JSNum), compareSemver a [] = compareZerosR a
  | [] => rfl
  | _ :: _ => rfl

/-- Uniform one-step unfolding of `compareSemver`: missing components
behave as zeros. -/
theorem compareSemver_step (a b : List JSNum) (h : a ≠ [] ∨ b ≠ []) :
    compareSemver a b =
      if JSNum.eqv (a.headD JSNum.zero) (b.headD JSNum.zero)
      then compareSemver a.tail b.tail
      else JSNum.sub (a.headD JSNum.zero) (b.headD JSNum.zero) := by
  match a, b with
  | [], [] => simp at h
  | [], c :: bs => rfl
  | x :: as, [] =>
    show compareZerosR (x :: as) = _
    rw [compareZerosR]
    rcases hx : as with _ | ⟨y, as'⟩ <;> rfl
  | x :: as, c :: bs => rfl

theorem semverList_le_refl (a : List JSNum) : (compareSemver a a).mant ≤ 0 := by
  have h := compareSemver_mant_swap a a
  omega

theorem semverList_le_total (a b : List JSNum) :
    (compareSemver a b).mant ≤ 0 ∨ (compareSemver b a).mant ≤ 0 := by
  have h := compareSemver_mant_swap a b
  omega

theorem semverList_le_trans_fuel :
    ∀ (n : Nat) (a b c : List JSNum), a.length + b.length + c.length ≤ n →
      (compareSemver a b).mant ≤ 0 → (compareSemver b c).mant ≤ 0 →
      (compareSemver a c).mant ≤ 0 := by
  intro n
  induction n with
  | zero =>
    intro a b c hlen h1 h2
    match a, b, c with
    | [], [], [] => exact h2
    | _, _, _ => simp_all
  | succ n ih =>
    intro a b c hlen h1 h2
    by_cases hab : a = [] ∧ b = []
    · rw [hab.1]
      rw [hab.2] at h2
      exact h2
    · by_cases hbc : b = [] ∧ c = []
      · rw [hbc.2]
        rw [hbc.1] at h1
        exact h1
      · by_cases hac : a = [] ∧ c = []
        · rw [hac.1, hac.2]
          exact semverList_le_refl []
        · rw [compareSemver_step a b (by tauto)] at h1
          rw [compareSemver_step b c (by tauto)] at h2
          rw [compareSemver_step a c (by tauto)]
          set x := a.headD JSNum.zero with hx
          set y := b.headD JSNum.zero with hy
          set z := c.headD JSNum.zero with hz
          by_cases e1 : JSNum.eqv x y <;> by_cases e2 : JSNum.eqv y z
          · have e3 : JSNum.eqv x z := by
              rw [← JSNum.val_eq_iff] at *
              exact e1.trans e2
            rw [if_pos e1] at h1
            rw [if_pos e2] at h2
            rw [if_pos e3]
            refine ih a.tail b.tail c.tail ?_ h1 h2
            have h1l : a.tail.length + 1 = a.length ∨ (a = [] ∧ a.tail.length = 0) := by
              cases a <;> simp
            have h2l : b.tail.length + 1 = b.length ∨ (b = [] ∧ b.tail.length = 0) := by
              cases b <;> simp
            have h3l : c.tail.length + 1 = c.length ∨ (c = [] ∧ c.tail.length = 0) := by
              cases c <;> simp
            rcases h1l with h1l | h1l <;> rcases h2l with h2l | h2l <;>
              rcases h3l with h3l | h3l <;> omega
          · rw [if_pos e1] at h1
            rw [if_neg e2, JSNum.sub_mant_nonpos] at h2
            have exy : x.val = y.val := (JSNum.val_eq_iff x y).mpr e1
            have hne : ¬ JSNum.eqv x z := by
              rw [← JSNum.val_eq_iff]
              intro hh
              exact e2 ((JSNum.val_eq_iff y z).mp (by rw [← exy, hh]))
            rw [if_neg hne, JSNum.sub_mant_nonpos]
            rw [exy]
            exact h2
          · rw [if_neg e1, JSNum.sub_mant_nonpos] at h1
            rw [if_pos e2] at h2
            have eyz : y.val = z.val := (JSNum.val_eq_iff y z).mpr e2
            have hne : ¬ JSNum.eqv x z := by
              rw [← JSNum.val_eq_iff]
              intro hh
              exact e1 ((JSNum.val_eq_iff x y).mp (by rw [hh, ← eyz]))
            rw [if_neg hne, JSNum.sub_mant_nonpos]
            rw [← eyz]
            exact h1
          · rw [if_neg e1, JSNum.sub_mant_nonpos] at h1
            rw [if_neg e2, JSNum.sub_mant_nonpos] at h2
            have l1 : x.val < y.val :=
              lt_of_le_of_ne h1 (fun hh => e1 ((JSNum.val_eq_iff x y).mp hh))
            have l2 : y.val < z.val :=
              lt_of_le_of_ne h2 (fun hh => e2 ((JSNum.val_eq_iff y z).mp hh))
            have l3 : x.val < z.val := l1.trans l2
            have hne : ¬ JSNum.eqv x z := by
              rw [← JSNum.val_eq_iff]
              exact fun hh => absurd hh (ne_of_lt l3)
            rw [if_neg hne, JSNum.sub_mant_nonpos]
            exact le_of_lt l3

theorem semverList_le_trans {a b c : List JSNum}
    (h1 : (compareSemver a b).mant ≤ 0) (h2 : (compareSemver b c).mant ≤ 0) :
    (compareSemver a c).mant ≤ 0 :=
  semverList_le_trans_fuel (a.length + b.length + c.length) a b c le_rfl h1 h2

instance : IsTotal TagCandidate semverLe :=
  ⟨fun a b => semverList_le_total a.semver b.semver⟩

instance : IsTrans TagCandidate semverLe :=
  ⟨fun _ _ _ h1 h2 => semverList_le_trans h1 h2⟩

theorem semverLe_refl (a : TagCandidate) : semverLe a a :=
  semverList_le_refl a.semver

/-! ### Characterizing the collected markdown files -/

/-- Membership of a named entry in a readdir entry list. -/
inductive EntryMem : String → FSNode → FSEntries → Prop where
  | head (name : String) (node : FSNode) (rest : FSEntries) :
      EntryMem name node (.cons name node rest)
  | tail (name : String) (node : FSNode) (n : String) (t : FSNode) (rest : FSEntries) :
      EntryMem name node rest → EntryMem name node (.cons n t rest)

/-- `HasMdE es segs`: below a directory with entry list `es`, the
relative segment path `segs` names a file with (case-insensitive)
extension `.md`. -/
inductive HasMdE : FSEntries → List String → Prop where
  | file {es : FSEntries} {name : String} :
      EntryMem name .file es → toLowerStr (extname name) = ".md" → HasMdE es [name]
  | sub {es : FSEntries} {name : String} {es' : FSEntries} {segs : List String} :
      EntryMem name (.dir es') es → HasMdE es' segs → HasMdE es (name :: segs)

theorem entryMem_cons_iff {n : String} {t : FSNode} {name : String} {node : FSNode}
    {rest : FSEntries} :
    EntryMem n t (.cons name node rest) ↔ (n = name ∧ t = node) ∨ EntryMem n t rest := by
  constructor
  · intro h
    cases h with
    | head => exact Or.inl ⟨rfl, rfl⟩
    | tail _ _ _ h => exact Or.inr h
  · rintro (⟨rfl, rfl⟩ | h)
    · exact EntryMem.head ..
    · exact EntryMem.tail _ _ _ _ _ h

theorem hasMdE_cons_iff {name : String} {node : FSNode} {rest : FSEntries}
    {segs : List String} :
    HasMdE (.cons name node rest) segs ↔
      HasMdE rest segs ∨
      (node = .file ∧ toLowerStr (extname name) = ".md" ∧ segs = [name]) ∨
      (∃ es' segs', node = .dir es' ∧ HasMdE es' segs' ∧ segs = name :: segs') := by
  constructor
  · intro h
    cases h with
    | file hm hext =>
      rcases entryMem_cons_iff.mp hm with ⟨rfl, rfl⟩ | hm'
      · exact Or.inr (Or.inl ⟨rfl, hext, rfl⟩)
      · exact Or.inl (HasMdE.file hm' hext)
    | sub hm hsub =>
      rcases entryMem_cons_iff.mp hm with ⟨rfl, rfl⟩ | hm'
      · exact Or.inr (Or.inr ⟨_, _, rfl, hsub, rfl⟩)
      · exact Or.inl (HasMdE.sub hm' hsub)
  · rintro (h | ⟨rfl, hext, rfl⟩ | ⟨es', segs', rfl, hsub, rfl⟩)
    · cases h with
      | file hm hext => exact HasMdE.file (entryMem_cons_iff.mpr (Or.inr hm)) hext
      | sub hm hsub => exact HasMdE.sub (entryMem_cons_iff.mpr (Or.inr hm)) hsub
    · exact HasMdE.file (entryMem_cons_iff.mpr (Or.inl ⟨rfl, rfl⟩)) hext
    · exact HasMdE.sub (entryMem_cons_iff.mpr (Or.inl ⟨rfl, rfl⟩)) hsub

theorem hasMdE_ne_nil {es : FSEntries} {segs : List String} (h : HasMdE es segs) :
    segs ≠ [] := by
  cases h <;> simp

/-- The gathered files are exactly the markdown files below the root,
at their relative segment paths. -/
theorem mem_mdFilesE_iff :
    ∀ (es : FSEntries) (cur p : Path),
      p ∈ FSEntries.mdFiles es cur ↔ ∃ segs, HasMdE es segs ∧ p = cur ++ segs
  | .nil, cur, p => by
    simp only [FSEntries.mdFiles, List.not_mem_nil, false_iff]
    rintro ⟨segs, hm, rfl⟩
    cases hm with
    | file hm _ => cases hm
    | sub hm _ => cases hm
  | .cons name .file rest, cur, p => by
    have ihRest := mem_mdFilesE_iff rest cur p
    show p ∈ (if toLowerStr (extname name) = ".md" then [cur ++ [name]] else []) ++
        FSEntries.mdFiles rest cur ↔ _
    rw [List.mem_append, ihRest]
    by_cases hext : toLowerStr (extname name) = ".md"
    · rw [if_pos hext]
      simp only [List.mem_singleton]
      constructor
      · rintro (rfl | ⟨segs, hm, rfl⟩)
        · exact ⟨[name], hasMdE_cons_iff.mpr (Or.inr (Or.inl ⟨rfl, hext, rfl⟩)), rfl⟩
        · exact ⟨segs, hasMdE_cons_iff.mpr (Or.inl hm), rfl⟩
      · rintro ⟨segs, hm, rfl⟩
        rcases hasMdE_cons_iff.mp hm with h | ⟨_, _, rfl⟩ | ⟨es', segs', heq, _, _⟩
        · exact Or.inr ⟨segs, h, rfl⟩
        · exact Or.inl rfl
        · cases heq
    · rw [if_neg hext]
      simp only [List.not_mem_nil, false_or]
      constructor
      · rintro ⟨segs, hm, rfl⟩
        exact ⟨segs, hasMdE_cons_iff.mpr (Or.inl hm), rfl⟩
      · rintro ⟨segs, hm, rfl⟩
        rcases hasMdE_cons_iff.mp hm with h | ⟨_, hext', _⟩ | ⟨es', segs', heq, _, _⟩
        · exact ⟨segs, h, rfl⟩
        · exact absurd hext' hext
        · cases heq
  | .cons name .other rest, cur, p => by
    have ihRest := mem_mdFilesE_iff rest cur p
    show p ∈ ([] : List Path) ++ FSEntries.mdFiles rest cur ↔ _
    rw [List.nil_append, ihRest]
    constructor
    · rintro ⟨segs, hm, rfl⟩
      exact ⟨segs, hasMdE_cons_iff.mpr (Or.inl hm), rfl⟩
    · rintro ⟨segs, hm, rfl⟩
      rcases hasMdE_cons_iff.mp hm with h | ⟨heq, _, _⟩ | ⟨es', segs', heq, _, _⟩
      · exact ⟨segs, h, rfl⟩
      · cases heq
      · cases heq
  | .cons name (.dir es') rest, cur, p => by
    have ihRest := mem_mdFilesE_iff rest cur p
    have ihSub := mem_mdFilesE_iff es' (cur ++ [name]) p
    show p ∈ FSEntries.mdFiles es' (cur ++ [name]) ++ FSEntries.mdFiles rest cur ↔ _
    rw [List.mem_append, ihRest, ihSub]
    constructor
    · rintro (⟨segs, hm, rfl⟩ | ⟨segs, hm, rfl⟩)
      · exact ⟨name :: segs,
          hasMdE_cons_iff.mpr (Or.inr (Or.inr ⟨es', segs, rfl, hm, rfl⟩)),
          by simp⟩
      · exact ⟨segs, hasMdE_cons_iff.mpr (Or.inl hm), rfl⟩
    · rintro ⟨segs, hm, rfl⟩
      rcases hasMdE_cons_iff.mp hm with h | ⟨heq, _, _⟩ | ⟨es'', segs', heq, hsub, rfl⟩
      · exact Or.inr ⟨segs, h, rfl⟩
      · cases heq
      · cases heq
        exact Or.inl ⟨segs', hsub, by simp⟩

/-! ### Output-shape string lemmas -/

theorem head?_dropWhile_not {α : Type} {p : α → Bool} :
    ∀ {l : List α} {c : α}, (l.dropWhile p).head? = some c → p c = false
  | [], c, h => by simp [List.dropWhile] at h
  | a :: t, c, h => by
    by_cases hp : p a
    · rw [List.dropWhile_cons_of_pos hp] at h
      exact head?_dropWhile_not h
    · rw [List.dropWhile_cons_of_neg hp] at h
      obtain rfl : a = c := by simpa using h
      exact Bool.not_eq_true _ ▸ (by simpa using hp)

/-- A `normalizeTrailingWhitespace` result that is nonempty ends in a
non-whitespace character. -/
theorem norm_getLast_not_ws {s : String} {c : Char}
    (h : (normalizeTrailingWhitespace s).data.getLast? = some c) : jsWS c = false := by
  unfold normalizeTrailingWhitespace at h
  rw [List.getLast?_reverse] at h
  exact head?_dropWhile_not h

/-- Stripping trailing whitespace from a string already ending in a
non-whitespace character does nothing. -/
theorem normalizeTrailingWhitespace_eq_self {s : String} {c : Char}
    (h : s.data.getLast? = some c) (hc : jsWS c = false) :
    normalizeTrailingWhitespace s = s := by
  obtain ⟨d⟩ := s
  unfold normalizeTrailingWhitespace
  simp only at h
  congr 1
  have hrev : d.reverse.head? = some c := by
    rw [List.head?_reverse]
    exact h
  have hdw : d.reverse.dropWhile jsWS = d.reverse := by
    cases hd : d.reverse with
    | nil => rfl
    | cons a t =>
      rw [hd] at hrev
      obtain rfl : a = c := by simpa using hrev
      exact List.dropWhile_cons_of_neg (by simp [hc])
  rw [hdw, List.reverse_reverse]

/-- The document ends with exactly one newline character. -/
def endsWithExactlyOneNewline (s : String) : Bool :=
  match s.data.reverse with
  | '\n' :: rest =>
    match rest with
    | [] => true
    | c :: _ => decide (c ≠ '\n')
  | _ => false

theorem endsWithExactlyOneNewline_append {x : String} {c : Char}
    (h : x.data.getLast? = some c) (hc : c ≠ '\n') :
    endsWithExactlyOneNewline (x ++ "\n") = true := by
  unfold endsWithExactlyOneNewline
  rw [String.data_append]
  have hnl : ("\n" : String).data = ['\n'] := rfl
  rw [hnl, List.reverse_append]
  have hrev : x.data.reverse.head? = some c := by
    rw [List.head?_reverse]
    exact h
  cases hd : x.data.reverse with
  | nil => rw [hd] at hrev; cases hrev
  | cons a t =>
    rw [hd] at hrev
    obtain rfl : a = c := by simpa using hrev
    simp [hc]

theorem joinSep_getLast (sep : String) :
    ∀ {l : List String} {x : String}, l.getLast? = some x → x.data ≠ [] →
      (joinSep sep l).data.getLast? = x.data.getLast? ∧ (joinSep sep l).data ≠ []
  | [], y, h, _ => by cases h
  | [x], y, h, hne => by
    obtain rfl : x = y := by simpa using h
    exact ⟨rfl, hne⟩
  | x :: y :: t, z, h, hne => by
    have h' : (y :: t).getLast? = some z := by simpa using h
    obtain ⟨ih1, ih2⟩ := joinSep_getLast sep h' hne
    have hzl : z.data.getLast? ≠ none := fun hn => hne (List.getLast?_eq_none_iff.mp hn)
    constructor
    · show ((x ++ sep ++ joinSep sep (y :: t)).data).getLast? = _
      rw [String.data_append, List.getLast?_append, ih1]
      cases hz : z.data.getLast? with
      | none => exact absurd hz hzl
      | some w => rfl
    · show ((x ++ sep ++ joinSep sep (y :: t)).data) ≠ []
      rw [String.data_append]
      simp [ih2]

theorem mapM_except_congr {α β : Type} {l : List α} {f g : α → Except Err β}
    (h : ∀ a ∈ l, f a = g a) : l.mapM f = l.mapM g := by
  induction l with
  | nil => rfl
  | cons a t ih =>
    rw [List.mapM_cons, List.mapM_cons, h a (List.mem_cons_self a t),
      ih (fun x hx => h x (List.mem_cons_of_mem a hx))]

/-! ### `collectResolvedRules` facts -/

/-- The state invariant of the shared de-duplication: the resolved list
has no duplicates and every resolved path is in the seen set. -/
def RuleStInv (st : List Path × List Path) : Prop :=
  st.1.Nodup ∧ ∀ x ∈ st.1, x ∈ st.2

theorem addRulePaths_preserves {exists? : Path → Bool} {l : List Path}
    {st st' : List Path × List Path} (h : addRulePaths exists? l st = .ok st')
    (hinv : RuleStInv st) : RuleStInv st' := by
  obtain ⟨h1, h2⟩ := addRulePaths_ok h
  constructor
  · rw [h1]
    refine List.Nodup.append hinv.1 (nodup_dedupNew _ _) ?_
    intro x hx hx'
    exact (mem_dedupNew.mp hx').2 (hinv.2 x hx)
  · intro x hx
    rw [h1] at hx
    rcases List.mem_append.mp hx with hx | hx
    · exact (h2 x).mpr (Or.inr (hinv.2 x hx))
    · exact (h2 x).mpr (Or.inl (mem_dedupNew.mp hx).1)

theorem foldlM_except_preserves {α σ : Type} {g : σ → α → Except Err σ} {P : σ → Prop}
    (hg : ∀ st d st', g st d = .ok st' → P st → P st') :
    ∀ {l : List α} {st st' : σ}, l.foldlM g st = .ok st' → P st → P st'
  | [], st, st', h, hp => by
    cases h
    exact hp
  | d :: t, st, st', h, hp => by
    rw [List.foldlM_cons] at h
    cases hstep : g st d with
    | error e =>
      rw [hstep] at h
      cases h
    | ok st1 =>
      rw [hstep, exceptOkBind] at h
      exact foldlM_except_preserves hg h (hg _ _ _ hstep hp)

/-- Whenever `collectResolvedRules` succeeds, the resolved rule list has
no duplicate resolved paths. -/
theorem collectResolvedRules_nodup {dirAt : Path → DirLookup} {exists? : Path → Bool} {rulesetDir : Path} {r : ProjectRuleset}
    {rulesRoot : Path} {rules : List Path}
    (h : collectResolvedRules dirAt exists? rulesetDir r rulesRoot = .ok rules) : rules.Nodup := by
  unfold collectResolvedRules at h
  cases hst1 : collectGlobalStep dirAt exists? r rulesRoot ([], []) with
  | error e =>
    rw [hst1] at h
    exact Except.noConfusion h
  | ok st1 =>
    rw [hst1] at h
    dsimp only at h
    have hinv1 : RuleStInv st1 := by
      unfold collectGlobalStep at hst1
      split at hst1
      · cases hcm : collectMarkdownFiles dirAt (rulesRoot ++ ["global"]) with
        | error e =>
          rw [hcm] at hst1
          exact Except.noConfusion hst1
        | ok files =>
          rw [hcm] at hst1
          exact addRulePaths_preserves hst1 ⟨List.nodup_nil, by simp⟩
      · cases hst1
        exact ⟨List.nodup_nil, by simp⟩
    cases hst2 : (r.domains?.getD []).foldlM (collectDomainStep dirAt exists? rulesRoot) st1 with
    | error e =>
      rw [hst2] at h
      exact Except.noConfusion h
    | ok st2 =>
      rw [hst2] at h
      dsimp only at h
      have hinv2 : RuleStInv st2 := by
        refine foldlM_except_preserves ?_ hst2 hinv1
        intro st d st' hstep hp
        unfold collectDomainStep at hstep
        cases hcm : collectMarkdownFiles dirAt
            (jsResolvePath (rulesRoot ++ ["domains"]) d) with
        | error e =>
          rw [hcm] at hstep
          exact Except.noConfusion hstep
        | ok files =>
          rw [hcm] at hstep
          exact addRulePaths_preserves hstep hp
      cases hst3 : addRulePaths exists?
          ((r.extra?.getD []).map (resolveFrom rulesetDir)) st2 with
      | error e =>
        rw [hst3] at h
        exact Except.noConfusion h
      | ok st3 =>
        rw [hst3] at h
        dsimp only at h
        cases h
        exact (addRulePaths_preserves hst3 hinv2).1

theorem domain_fold_eq (dirAt : Path → DirLookup) (exists? : Path → Bool) (rulesRoot : Path) :
    ∀ (domains : List String) (domLists : List (List Path)) (st : List Path × List Path),
      domains.mapM (fun d => collectMarkdownFiles dirAt
        (jsResolvePath (rulesRoot ++ ["domains"]) d)) = .ok domLists →
      domains.foldlM (collectDomainStep dirAt exists? rulesRoot) st =
        domLists.foldlM (fun st l => addRulePaths exists? l st) st
  | [], domLists, st, h => by
    cases h
    rfl
  | d :: ds, domLists, st, h => by
    rw [List.mapM_cons] at h
    cases hcm : collectMarkdownFiles dirAt (jsResolvePath (rulesRoot ++ ["domains"]) d) with
    | error e =>
      rw [hcm] at h
      exact Except.noConfusion h
    | ok files =>
      rw [hcm, exceptOkBind] at h
      cases hrec : ds.mapM (fun d => collectMarkdownFiles dirAt
          (jsResolvePath (rulesRoot ++ ["domains"]) d)) with
      | error e =>
        rw [hrec] at h
        exact Except.noConfusion h
      | ok ls =>
        rw [hrec, exceptOkBind] at h
        cases h
        rw [List.foldlM_cons, List.foldlM_cons]
        have hhead : collectDomainStep dirAt exists? rulesRoot st d = addRulePaths exists? files st := by
          unfold collectDomainStep
          rw [hcm]
        rw [hhead]
        cases hstep : addRulePaths exists? files st with
        | error e => rfl
        | ok st1 =>
          rw [exceptOkBind, exceptOkBind]
          exact domain_fold_eq dirAt exists? rulesRoot ds ls st1 hrec

/-- The success equation of rule collection: the resolved rule list is
the first-occurrence de-duplication of: global fragments, then each
domain's fragments in configured order, then the extra paths in
configured order. -/
theorem collectResolvedRules_eq {dirAt : Path → DirLookup} {exists? : Path → Bool} {rulesetDir : Path} {r : ProjectRuleset}
    {rulesRoot : Path} {rules : List Path}
    (h : collectResolvedRules dirAt exists? rulesetDir r rulesRoot = .ok rules)
    (hg : r.global? ≠ some false)
    {glob : List Path}
    (hglob : collectMarkdownFiles dirAt (rulesRoot ++ ["global"]) = .ok glob)
    {domLists : List (List Path)}
    (hdoms : (r.domains?.getD []).mapM (fun d => collectMarkdownFiles dirAt
      (jsResolvePath (rulesRoot ++ ["domains"]) d)) = .ok domLists) :
    rules = dedupFirst (glob ++ domLists.flatten ++
      (r.extra?.getD []).map (resolveFrom rulesetDir)) := by
  unfold collectResolvedRules at h
  have hgs : collectGlobalStep dirAt exists? r rulesRoot ([], []) =
      addRulePaths exists? glob ([], []) := by
    unfold collectGlobalStep
    rw [if_pos hg, hglob]
  rw [hgs] at h
  cases hst1 : addRulePaths exists? glob ([], []) with
  | error e =>
    rw [hst1] at h
    exact Except.noConfusion h
  | ok st1 =>
    rw [hst1] at h
    dsimp only at h
    obtain ⟨e1, e2⟩ := addRulePaths_ok hst1
    rw [domain_fold_eq dirAt exists? rulesRoot _ domLists st1 hdoms] at h
    cases hst2 : domLists.foldlM (fun st l => addRulePaths exists? l st) st1 with
    | error e =>
      rw [hst2] at h
      exact Except.noConfusion h
    | ok st2 =>
      rw [hst2] at h
      dsimp only at h
      obtain ⟨f1, f2⟩ := addRulePaths_chain hst2
      cases hst3 : addRulePaths exists?
          ((r.extra?.getD []).map (resolveFrom rulesetDir)) st2 with
      | error e =>
        rw [hst3] at h
        exact Except.noConfusion h
      | ok st3 =>
        rw [hst3] at h
        dsimp only at h
        cases h
        obtain ⟨g1, g2⟩ := addRulePaths_ok hst3
        rw [g1, f1, e1]
        have hc1 : dedupNew st1.2 domLists.flatten =
            dedupNew (glob ++ ([] : List Path)) domLists.flatten :=
          dedupNew_congr _ (fun x => by rw [e2 x]; simp)
        have hc2 : dedupNew st2.2 ((r.extra?.getD []).map (resolveFrom rulesetDir)) =
            dedupNew (domLists.flatten ++ (glob ++ ([] : List Path)))
              ((r.extra?.getD []).map (resolveFrom rulesetDir)) :=
          dedupNew_congr _ (fun x => by rw [f2 x, e2 x]; simp)
        unfold dedupFirst
        rw [dedupNew_append, dedupNew_append, hc1, hc2]
        simp only [List.append_assoc, List.append_nil, List.nil_append]
        refine congrArg _ (congrArg _ (dedupNew_congr _ fun x => ?_))
        simp only [List.mem_append]
        tauto

theorem dedupNew_eq_self {α : Type} [DecidableEq α] :
    ∀ {seen l : List α}, l.Nodup → (∀ x ∈ l, x ∉ seen) → dedupNew seen l = l
  | _, [], _, _ => rfl
  | seen, p :: rest, hnd, hdisj => by
    rw [dedupNew, if_neg (hdisj p (List.mem_cons_self p rest))]
    refine congrArg _ (dedupNew_eq_self (List.nodup_cons.mp hnd).2 ?_)
    intro x hx
    simp only [List.mem_cons]
    rintro (rfl | hs)
    · exact (List.nodup_cons.mp hnd).1 hx
    · exact hdisj x (List.mem_cons_of_mem p hx) hs

theorem dedupFirst_eq_self {α : Type} [DecidableEq α] {l : List α} (h : l.Nodup) :
    dedupFirst l = l :=
  dedupNew_eq_self h (by simp)

/-- A successful `collectMarkdownFiles` result is sorted by the
`localeCompare` order on relative paths. -/
theorem collectMarkdownFiles_ok_sorted {dirAt : Path → DirLookup} {root : Path}
    {l : List Path} (h : collectMarkdownFiles dirAt root = .ok l) :
    l.Pairwise (relLe root) := by
  unfold collectMarkdownFiles at h
  cases hd : dirAt root with
  | missing => rw [hd] at h; exact Except.noConfusion h
  | notDir => rw [hd] at h; exact Except.noConfusion h
  | tree t =>
    rw [hd] at h
    cases h
    exact List.sorted_insertionSort _ _

/-! ### The claims -/

/-- C1: with global enabled, `composeRuleset`'s rule collection
assembles the rule list in exactly the order: global fragments (as
sorted by `collectMarkdownFiles`), then each configured domain's
fragments (sorted) in configured order, then the extra paths in
configured order — first-occurrence-deduplicated across the shared
state, and equal to the plain concatenation when no file is reachable
twice; each collected block is sorted by relative path; and the sorted
collection result is independent of the order in which the filesystem
enumerates directory entries. -/
theorem claim_c1_section_order (dirAt : Path → DirLookup) (exists? : Path → Bool) (rulesetDir : Path)
    (r : ProjectRuleset) (rulesRoot : Path)
    (rules glob : List Path) (domLists : List (List Path))
    (hg : r.global? ≠ some false)
    (hok : collectResolvedRules dirAt exists? rulesetDir r rulesRoot = .ok rules)
    (hglob : collectMarkdownFiles dirAt (rulesRoot ++ ["global"]) = .ok glob)
    (hdoms : (r.domains?.getD []).mapM (fun d => collectMarkdownFiles dirAt
      (jsResolvePath (rulesRoot ++ ["domains"]) d)) = .ok domLists) :
    rules = dedupFirst (glob ++ domLists.flatten ++
        (r.extra?.getD []).map (resolveFrom rulesetDir)) ∧
    ((glob ++ domLists.flatten ++
        (r.extra?.getD []).map (resolveFrom rulesetDir)).Nodup →
      rules = glob ++ domLists.flatten ++
        (r.extra?.getD []).map (resolveFrom rulesetDir)) ∧
    glob.Pairwise (relLe (rulesRoot ++ ["global"])) ∧
    (∀ (da da' : Path → DirLookup) (root : Path) (t t' : FSNode),
      da root = .tree t → da' root = .tree t' →
      List.Perm (t.mdFiles root) (t'.mdFiles root) →
      ((t.mdFiles root).map (fun p => normalizePath (pathRelative root p))).Nodup →
      collectMarkdownFiles da root = collectMarkdownFiles da' root) := by
  refine ⟨collectResolvedRules_eq hok hg hglob hdoms, ?_, collectMarkdownFiles_ok_sorted hglob, ?_⟩
  · intro hnd
    rw [collectResolvedRules_eq hok hg hglob hdoms]
    exact dedupFirst_eq_self hnd
  · intro da da' root t t' hd hd' hperm hnd
    unfold collectMarkdownFiles
    rw [hd, hd']
    unfold collectSorted
    refine congrArg _ (insertionSortRel_congr root hperm ?_)
    exact fun a ha b hb => List.inj_on_of_nodup_map hnd ha hb

/-- C1 witness: a concrete run with one global fragment, two domains and
one extra file, where the resolved list is the concatenation in section
order. -/
theorem claim_c1_section_order_witness :
    (let gtree : FSNode := .dir (.cons "g.md" .file .nil)
     let d1tree : FSNode := .dir (.cons "d1.md" .file .nil)
     let d2tree : FSNode := .dir (.cons "d2.md" .file .nil)
     let dirAt : Path → DirLookup := fun p =>
          if p = ["src", "rules", "global"] then .tree gtree
          else if p = ["src", "rules", "domains", "a"] then .tree d1tree
          else if p = ["src", "rules", "domains", "b"] then .tree d2tree
          else .missing
     let r : ProjectRuleset :=
      { source := "./src", domains? := some ["a", "b"], extra? := some ["local.md"] }
     collectResolvedRules dirAt (fun _ => true) ["proj"] r ["src", "rules"] =
       .ok [["src", "rules", "global", "g.md"], ["src", "rules", "domains", "a", "d1.md"],
            ["src", "rules", "domains", "b", "d2.md"], ["proj", "local.md"]] ∧
     [["src", "rules", "global", "g.md"], ["src", "rules", "domains", "a", "d1.md"],
      ["src", "rules", "domains", "b", "d2.md"], ["proj", "local.md"]] =
       dedupFirst ([["src", "rules", "global", "g.md"]] ++
         [[["src", "rules", "domains", "a", "d1.md"]],
          [["src", "rules", "domains", "b", "d2.md"]]].flatten ++
         (some ["local.md"] |>.getD []).map (resolveFrom ["proj"]))) := by
  intro gtree d1tree d2tree dirAt r
  refine ⟨by rfl, ?_⟩
  have h := claim_c1_section_order dirAt (fun _ => true) ["proj"] r ["src", "rules"]
    [["src", "rules", "global", "g.md"], ["src", "rules", "domains", "a", "d1.md"],
     ["src", "rules", "domains", "b", "d2.md"], ["proj", "local.md"]]
    [["src", "rules", "global", "g.md"]]
    [[["src", "rules", "domains", "a", "d1.md"]], [["src", "rules", "domains", "b", "d2.md"]]]
    (by simp) (by rfl) (by rfl) (by rfl)
  exact h.1

/-- C2: feeding path lists through the shared de-duplication set yields
the first-occurrence de-duplication of their concatenation — a path
reachable via two configured routes appears exactly once, at its first
configured inclusion — the result never contains two equal resolved
paths, and every successful `collectResolvedRules` list is
duplicate-free. -/
theorem claim_c2_shared_dedup (exists? : Path → Bool) (lls : List (List Path))
    (rules seen : List Path)
    (h : lls.foldlM (fun st l => addRulePaths exists? l st)
      (([], []) : List Path × List Path) = .ok (rules, seen)) :
    rules = dedupFirst lls.flatten ∧
    rules.Nodup ∧
    (∀ x, x ∈ rules ↔ x ∈ lls.flatten) ∧
    (∀ (da : Path → DirLookup) (ex : Path → Bool) (rulesetDir : Path) (r : ProjectRuleset) (rulesRoot : Path)
        (rules2 : List Path),
      collectResolvedRules da ex rulesetDir r rulesRoot = .ok rules2 → rules2.Nodup) := by
  obtain ⟨h1, h2⟩ := addRulePaths_chain h
  have hr : rules = dedupFirst lls.flatten := by simpa [dedupFirst] using h1
  refine ⟨hr, ?_, ?_, ?_⟩
  · rw [hr]
    exact nodup_dedupNew _ _
  · intro x
    rw [hr]
    unfold dedupFirst
    rw [mem_dedupNew]
    simp
  · intro da ex rulesetDir r rulesRoot rules2 hok
    exact collectResolvedRules_nodup hok

/-- C2 witness: a path listed via two routes is kept once, at its first
inclusion. -/
theorem claim_c2_shared_dedup_witness :
    ([["a"], ["b"]] : List Path) =
      dedupFirst ([[["a"]], [["a"], ["b"]]] : List (List Path)).flatten ∧
    ([["a"], ["b"]] : List Path).Nodup := by
  have h := claim_c2_shared_dedup (fun _ => true) [[["a"]], [["a"], ["b"]]]
    [["a"], ["b"]] [["b"], ["a"]] (by rfl)
  exact ⟨h.1, h.2.1⟩

/-- C4 counterexample: resolving `latest` against the tag set
`[1.2.0, 1.10.0, 2.0.0-rc]` does not select `2.0.0` (nor `2.0.0-rc`):
the code selects `1.10.0`, because `2.0.0-rc` fails semver parsing and
is discarded before the maximum is taken. -/
theorem claim_c4_counterexample :
    latestFromRaw "h1 refs/tags/1.2.0\nh2 refs/tags/1.10.0\nh3 refs/tags/2.0.0-rc" =
      some ("1.10.0", "h2") ∧
    (latestFromRaw "h1 refs/tags/1.2.0\nh2 refs/tags/1.10.0\nh3 refs/tags/2.0.0-rc").map
      Prod.fst ≠ some "2.0.0" := by
  refine ⟨by rfl, ?_⟩
  intro h
  rw [show latestFromRaw "h1 refs/tags/1.2.0\nh2 refs/tags/1.10.0\nh3 refs/tags/2.0.0-rc" =
    some ("1.10.0", "h2") from rfl] at h
  simp at h

/-- C4 (amended): against tags `[1.2.0, 1.10.0, 2.0.0-rc]`, the tag
`2.0.0-rc` fails semver parsing and is ignored, and latest-resolution
selects `1.10.0` (with its hash), which is maximal among the parseable
candidates under component-wise numeric comparison
(`1.2.0 < 1.10.0`). -/
theorem claim_c4_latest_selects_1_10_0 :
    parseSemver "2.0.0-rc" = none ∧
    latestFromRaw "h1 refs/tags/1.2.0\nh2 refs/tags/1.10.0\nh3 refs/tags/2.0.0-rc" =
      some ("1.10.0", "h2") ∧
    (∀ c ∈ tagCandidates "h1 refs/tags/1.2.0\nh2 refs/tags/1.10.0\nh3 refs/tags/2.0.0-rc",
      semverLe c ⟨"h2", "1.10.0", [⟨1, 0⟩, ⟨10, 0⟩, ⟨0, 0⟩]⟩) := by
  refine ⟨by rfl, by rfl, ?_⟩
  decide

/-- C8: with `dryRun` set, `composeRuleset` performs no writes (creates
or modifies no file), yet its returned outcome — including the reported
output path — is identical to the non-dry run on the same inputs. -/
theorem claim_c8_dry_run (env : Env) (rulesetPath rootDir : Path) (opts : ComposeOptions) :
    (composeRuleset env rulesetPath rootDir { opts with dryRun := true }).1 = [] ∧
    (composeRuleset env rulesetPath rootDir { opts with dryRun := true }).2 =
      (composeRuleset env rulesetPath rootDir { opts with dryRun := false }).2 := by
  obtain ⟨refresh, dryRun⟩ := opts
  unfold composeRuleset
  cases env.ruleset with
  | error e => exact ⟨rfl, rfl⟩
  | ok r =>
    dsimp only
    cases (resolveRulesRoot env.git env.dirAt env.pathExists (pathDirname rulesetPath) r.source refresh).2 with
    | error e => exact ⟨rfl, rfl⟩
    | ok pr =>
      obtain ⟨rulesRoot, ref?⟩ := pr
      dsimp only
      cases collectResolvedRules env.dirAt env.pathExists (pathDirname rulesetPath) r rulesRoot with
      | error e => exact ⟨rfl, rfl⟩
      | ok rules =>
        dsimp only
        cases buildParts env.readFile (pathDirname rulesetPath) rulesRoot r.source ref? rules with
        | error e => exact ⟨rfl, rfl⟩
        | ok parts => exact ⟨rfl, rfl⟩

/-- C7: `composeRuleset` writes nothing when it fails at any stage —
ruleset validation, source resolution, rule collection, or reading a
fragment — and the only write it ever performs is the final one, whose
content is the fully assembled document built from every successfully
read fragment. -/
theorem claim_c7_no_partial_output (env : Env) (rulesetPath rootDir : Path)
    (opts : ComposeOptions) :
    (∀ e, (composeRuleset env rulesetPath rootDir opts).2 = .error e →
      (composeRuleset env rulesetPath rootDir opts).1 = []) ∧
    (∀ p c, WriteEff.writeFile p c ∈ (composeRuleset env rulesetPath rootDir opts).1 →
      ∃ r rulesRoot ref? rules parts,
        env.ruleset = .ok r ∧
        (resolveRulesRoot env.git env.dirAt env.pathExists (pathDirname rulesetPath) r.source opts.refresh).2 =
          .ok (rulesRoot, ref?) ∧
        collectResolvedRules env.dirAt env.pathExists (pathDirname rulesetPath) r rulesRoot = .ok rules ∧
        buildParts env.readFile (pathDirname rulesetPath) rulesRoot r.source ref? rules = .ok parts ∧
        c = assembleOutput (TOOL_RULES env) parts ∧
        p = resolveFrom (pathDirname rulesetPath) (r.output?.getD DEFAULT_OUTPUT)) := by
  unfold composeRuleset
  cases henv : env.ruleset with
  | error e => exact ⟨fun _ _ => rfl, fun p c hm => absurd hm (by simp)⟩
  | ok r =>
    dsimp only
    cases hres : (resolveRulesRoot env.git env.dirAt env.pathExists (pathDirname rulesetPath) r.source opts.refresh).2 with
    | error e => exact ⟨fun _ _ => rfl, fun p c hm => absurd hm (by simp)⟩
    | ok pr =>
      obtain ⟨rulesRoot, ref?⟩ := pr
      dsimp only
      cases hcol : collectResolvedRules env.dirAt env.pathExists (pathDirname rulesetPath) r rulesRoot with
      | error e => exact ⟨fun _ _ => rfl, fun p c hm => absurd hm (by simp)⟩
      | ok rules =>
        dsimp only
        cases hbp : buildParts env.readFile (pathDirname rulesetPath) rulesRoot r.source ref? rules with
        | error e => exact ⟨fun _ _ => rfl, fun p c hm => absurd hm (by simp)⟩
        | ok parts =>
          dsimp only
          refine ⟨fun e he => absurd he (by simp), fun p c hm => ?_⟩
          by_cases hd : opts.dryRun
          · rw [if_pos hd] at hm
            exact absurd hm (by simp)
          · rw [if_neg hd] at hm
            simp only [List.mem_cons, List.mem_singleton] at hm
            rcases hm with hm | hm | hm
            · exact absurd hm (by simp)
            · obtain ⟨hp, hc⟩ := WriteEff.writeFile.inj hm.symm
              exact ⟨r, rulesRoot, ref?, rules, parts, rfl, hres, hcol, hbp, hc.symm, hp.symm⟩
            · exact absurd hm (by simp)

/-- C7 witness: a run failing at schema validation writes nothing. -/
theorem claim_c7_no_partial_output_witness :
    (composeRuleset
      { ruleset := .error "Invalid ruleset schema"
        git := ⟨[], .error "x", .error "x", fun _ => .error "x", fun _ => false,
          fun _ => false, fun _ => false⟩
        dirAt := fun _ => .missing
        pathExists := fun _ => false
        readFile := fun _ => .error "x"
        toolRules := "T" } ["proj", "agent-ruleset.json"] ["proj"] {}).1 = [] :=
  (claim_c7_no_partial_output _ _ _ _).1 "Invalid ruleset schema" (by rfl)

theorem resolveRefAndHash_latest (g : GitEnv) (url raw : String)
    (hraw : g.lsRemoteTags = .ok raw) :
    resolveRefAndHash g url "latest" =
      match latestFromRaw raw with
      | some (t, h) => .ok (t, some h)
      | none =>
        match g.lsRemoteHead with
        | .error e => .error e
        | .ok raw2 =>
          match headHashFromRaw url raw2 with
          | .error e => .error e
          | .ok h => .ok ("HEAD", some h) := by
  unfold resolveRefAndHash
  rw [if_pos rfl, hraw]
  have hmap : Except.map latestFromRaw (Except.ok raw) =
      (Except.ok (latestFromRaw raw) : Except Err (Option (String × String))) := rfl
  rw [hmap]
  cases hl : latestFromRaw raw with
  | some pr =>
    obtain ⟨t, h⟩ := pr
    rfl
  | none => rfl

theorem tagCandidates_empty : tagCandidates "" = [] := rfl

theorem latestFromRaw_none {raw : String} (hc : tagCandidates raw = []) :
    latestFromRaw raw = none := by
  unfold latestFromRaw
  by_cases hraw : raw = ""
  · rw [if_pos hraw]
  · rw [if_neg hraw]
    dsimp only
    rw [if_pos hc]

theorem latestFromRaw_spec (raw : String) (hc : tagCandidates raw ≠ []) :
    ∃ c, c ∈ tagCandidates raw ∧ latestFromRaw raw = some (c.tag, c.hash) ∧
      ∀ c' ∈ tagCandidates raw, semverLe c' c := by
  have hraw : raw ≠ "" := by
    intro h
    rw [h, tagCandidates_empty] at hc
    exact hc rfl
  cases hlast : ((tagCandidates raw).insertionSort semverLe).getLast? with
  | none =>
    exfalso
    rw [List.getLast?_eq_none_iff] at hlast
    exact hc ((List.Perm.nil_eq (hlast ▸ (List.perm_insertionSort semverLe
      (tagCandidates raw)))).symm)
  | some last =>
    refine ⟨last, ?_, ?_, ?_⟩
    · exact (List.perm_insertionSort _ _).subset (List.mem_of_getLast?_eq_some hlast)
    · unfold latestFromRaw
      rw [if_neg hraw]
      dsimp only
      rw [if_neg hc, hlast]
      rfl
    · intro c' hc'
      have hc'' : c' ∈ (tagCandidates raw).insertionSort semverLe :=
        (List.mem_insertionSort semverLe).mpr hc'
      exact pairwise_rel_getLast semverLe_refl (List.sorted_insertionSort _ _) hlast c' hc''

/-- C3: resolving the literal ref `"latest"` lists the remote tags,
parses each as a semver (`parseSemver`: optional `v`, 2-3 `Number()`
components, failures discarded), and resolves to the tag and hash of a
maximal parseable candidate under component-wise numeric comparison
(missing components as 0, via `compareSemver`); if no tag parses, it
falls back to the remote HEAD commit hash. -/
theorem claim_c3_latest_resolution (g : GitEnv) (url raw : String)
    (hraw : g.lsRemoteTags = .ok raw) :
    (tagCandidates raw ≠ [] →
      ∃ c, c ∈ tagCandidates raw ∧
        resolveRefAndHash g url "latest" = .ok (c.tag, some c.hash) ∧
        ∀ c' ∈ tagCandidates raw, semverLe c' c) ∧
    (tagCandidates raw = [] →
      ∀ hraw2 h, g.lsRemoteHead = .ok hraw2 → headHashFromRaw url hraw2 = .ok h →
        resolveRefAndHash g url "latest" = .ok ("HEAD", some h)) := by
  constructor
  · intro hc
    obtain ⟨c, hmem, heq, hmax⟩ := latestFromRaw_spec raw hc
    refine ⟨c, hmem, ?_, hmax⟩
    rw [resolveRefAndHash_latest g url raw hraw, heq]
  · intro hc hraw2 h hh1 hh2
    rw [resolveRefAndHash_latest g url raw hraw, latestFromRaw_none hc]
    dsimp only
    rw [hh1]
    dsimp only
    rw [hh2]

/-- C3 witness: a concrete remote where `1.10.0` wins, and a concrete
remote with no semver tags falling back to HEAD. -/
theorem claim_c3_latest_resolution_witness :
    (resolveRefAndHash
      ⟨[], .ok "h1 refs/tags/1.2.0\nh2 refs/tags/1.10.0", .error "x",
        fun _ => .error "x", fun _ => false, fun _ => false, fun _ => false⟩
      "u" "latest" = .ok ("1.10.0", some "h2")) ∧
    (resolveRefAndHash
      ⟨[], .ok "h9 refs/tags/main", .ok "abc HEAD", fun _ => .error "x",
        fun _ => false, fun _ => false, fun _ => false⟩
      "u" "latest" = .ok ("HEAD", some "abc")) := by
  constructor
  · obtain ⟨c, hmem, heq, hmax⟩ :=
      (claim_c3_latest_resolution
        ⟨[], .ok "h1 refs/tags/1.2.0\nh2 refs/tags/1.10.0", .error "x",
          fun _ => .error "x", fun _ => false, fun _ => false, fun _ => false⟩
        "u" "h1 refs/tags/1.2.0\nh2 refs/tags/1.10.0" rfl).1 (by decide)
    have h2 := hmax ⟨"h2", "1.10.0", [⟨1, 0⟩, ⟨10, 0⟩, ⟨0, 0⟩]⟩ (by decide)
    have hco : c = ⟨"h1", "1.2.0", [⟨1, 0⟩, ⟨2, 0⟩, ⟨0, 0⟩]⟩ ∨
        c = ⟨"h2", "1.10.0", [⟨1, 0⟩, ⟨10, 0⟩, ⟨0, 0⟩]⟩ := by
      have h' : tagCandidates "h1 refs/tags/1.2.0\nh2 refs/tags/1.10.0" =
          [⟨"h1", "1.2.0", [⟨1, 0⟩, ⟨2, 0⟩, ⟨0, 0⟩]⟩,
           ⟨"h2", "1.10.0", [⟨1, 0⟩, ⟨10, 0⟩, ⟨0, 0⟩]⟩] := rfl
      rw [h'] at hmem
      simpa using hmem
    rcases hco with rfl | rfl
    · exact absurd h2 (by decide)
    · rw [heq]
  · exact (claim_c3_latest_resolution
      ⟨[], .ok "h9 refs/tags/main", .ok "abc HEAD", fun _ => .error "x",
        fun _ => false, fun _ => false, fun _ => false⟩
      "u" "h9 refs/tags/main" rfl).2 (by decide) "abc HEAD" "abc" rfl rfl

/-- C6: a GitHub source whose ref is a 7-40 character hex string naming
no branch or tag still resolves: the ref-listing yields no hash, the
shallow branch/tag clone fails, and the resolver falls back to
`fetchCommit` (init, remote add, shallow fetch of the commit, checkout),
accepting the ref as a commit reference; the resolution returns the
cache checkout's `rules` directory and the literal ref. -/
theorem claim_c6_commit_hash_fallback (g : GitEnv) (dirAt : Path → DirLookup) (source : String) (gs : GithubSource)
    (refresh : Bool)
    (hparse : parseGithubSource source = .ok gs)
    (hhex : looksLikeCommitHash gs.ref = true)
    (hne : gs.ref ≠ "latest")
    (hneH : gs.ref ≠ "HEAD")
    (hlsref : g.lsRemoteRef gs.ref = .ok "")
    (hclone : g.cloneOk gs.ref = false)
    (hfetch : g.fetchOk gs.ref = true)
    (hcache : g.cacheDirExists
      (g.cacheRoot ++ [gs.owner, gs.repo, sanitizeCacheSegment gs.ref]) = false)
    (hrules : ensureDirectoryExists dirAt
      (g.cacheRoot ++ [gs.owner, gs.repo, sanitizeCacheSegment gs.ref] ++ ["rules"]) =
      .ok ()) :
    (resolveGithubRulesRoot g dirAt source refresh).2 =
      .ok (g.cacheRoot ++ [gs.owner, gs.repo, sanitizeCacheSegment gs.ref] ++ ["rules"],
        gs.ref) ∧
    GitOp.fetch gs.ref (g.cacheRoot ++ [gs.owner, gs.repo, sanitizeCacheSegment gs.ref]) ∈
      (resolveGithubRulesRoot g dirAt source refresh).1 := by
  have hrr : resolveRefAndHash g gs.url gs.ref = .ok (gs.ref, none) := by
    unfold resolveRefAndHash
    rw [if_neg hne]
    dsimp only
    rw [if_neg hne, if_neg hneH, hlsref]
    rfl
  have hstep : githubCacheStep g gs.url gs.ref none
      (g.cacheRoot ++ [gs.owner, gs.repo, sanitizeCacheSegment gs.ref]) refresh =
      ([GitOp.clone gs.ref (g.cacheRoot ++ [gs.owner, gs.repo, sanitizeCacheSegment gs.ref]),
        GitOp.gitInit (g.cacheRoot ++ [gs.owner, gs.repo, sanitizeCacheSegment gs.ref]),
        GitOp.remoteAdd gs.url (g.cacheRoot ++ [gs.owner, gs.repo, sanitizeCacheSegment gs.ref]),
        GitOp.fetch gs.ref (g.cacheRoot ++ [gs.owner, gs.repo, sanitizeCacheSegment gs.ref]),
        GitOp.checkout (g.cacheRoot ++ [gs.owner, gs.repo, sanitizeCacheSegment gs.ref])],
        .ok ()) := by
    unfold githubCacheStep cloneFallback fetchCommitOps
    rw [hcache, hclone, hfetch]
    simp [hhex]
  have hfin : resolveGithubRulesRoot g dirAt source refresh =
      githubFinish g dirAt gs.url gs.ref none
        (g.cacheRoot ++ [gs.owner, gs.repo, sanitizeCacheSegment gs.ref]) refresh := by
    unfold resolveGithubRulesRoot
    rw [hparse]
    dsimp only
    rw [hrr]
    dsimp only
    rw [if_neg (by simp [hhex]), if_neg hneH]
  rw [hfin]
  unfold githubFinish
  rw [hstep]
  dsimp only
  rw [hrules]
  exact ⟨rfl, by simp⟩

/-- C6 witness: a concrete hex ref with no matching branch/tag resolves
through the fetch-commit fallback. -/
theorem claim_c6_commit_hash_fallback_witness :
    (let g : GitEnv := ⟨["cache"], .error "x", .error "x", fun _ => .ok "", fun _ => false,
          fun _ => true, fun _ => false⟩
     let dirAt : Path → DirLookup := fun p =>
          if p = ["cache", "o", "r", "deadbeef01", "rules"]
          then .tree (.dir .nil) else .missing
     (resolveGithubRulesRoot g dirAt "github:o/r@deadbeef01" false).2 =
       .ok (["cache", "o", "r", "deadbeef01", "rules"], "deadbeef01") ∧
     GitOp.fetch "deadbeef01" ["cache", "o", "r", "deadbeef01"] ∈
       (resolveGithubRulesRoot g dirAt "github:o/r@deadbeef01" false).1) := by
  intro g dirAt
  have h := claim_c6_commit_hash_fallback g dirAt "github:o/r@deadbeef01"
    ⟨"o", "r", "deadbeef01", "https://github.com/o/r.git"⟩ false
    (by rfl) (by rfl) (by decide) (by decide) (by rfl) (by rfl) (by rfl) (by rfl) (by rfl)
  exact h

/-- Ordinal (code-point) comparison of rendered relative paths: the sort
order asserted by the spec for `collectMarkdownFiles`. -/
def relOrdinalLe (root : Path) (a b : Path) : Prop :=
  (normalizePath (pathRelative root a)).data ≤ (normalizePath (pathRelative root b)).data

instance (root : Path) (a b : Path) : Decidable (relOrdinalLe root a b) := by
  unfold relOrdinalLe
  infer_instance

/-- Variant of `collectMarkdownFiles` modelled from the spec's words
("sorted by path relative to the root using ordinal string comparison"),
for comparison against the implementation, which sorts with
`localeCompare`. -/
def collectMarkdownFilesOrdinalSpec (dirAt : Path → DirLookup) (rootDir : Path) :
    Except Err (List Path) :=
  match dirAt rootDir with
  | .missing => .error ("Missing directory: " ++ renderAbs rootDir)
  | .notDir => .error ("Not a directory: " ++ renderAbs rootDir)
  | .tree t => .ok ((t.mdFiles rootDir).insertionSort (relOrdinalLe rootDir))

/-- C5 counterexample: on a root containing `B.md` and `a.md`,
`collectMarkdownFiles` (which sorts with `localeCompare`, placing
`a.md` before `B.md`) disagrees with the ordinal order the claim
asserts (which places `B.md` first). -/
theorem claim_c5_counterexample :
    (let dirAt : Path → DirLookup := fun p =>
      if p = ["r"] then .tree (.dir (.cons "B.md" .file (.cons "a.md" .file .nil)))
      else .missing
     collectMarkdownFiles dirAt ["r"] = .ok [["r", "a.md"], ["r", "B.md"]] ∧
     collectMarkdownFilesOrdinalSpec dirAt ["r"] = .ok [["r", "B.md"], ["r", "a.md"]] ∧
     collectMarkdownFiles dirAt ["r"] ≠ collectMarkdownFilesOrdinalSpec dirAt ["r"]) := by
  intro dirAt
  refine ⟨by rfl, by rfl, fun h => ?_⟩
  rw [show collectMarkdownFiles dirAt ["r"] = .ok [["r", "a.md"], ["r", "B.md"]] from rfl,
    show collectMarkdownFilesOrdinalSpec dirAt ["r"] = .ok [["r", "B.md"], ["r", "a.md"]]
      from rfl] at h
  simp at h

/-- C5 (amended): `collectMarkdownFiles` fails with the missing- and
not-a-directory errors; on an existing directory it succeeds with
exactly the files below the root whose extension is `.md` compared
case-insensitively (characterized by `HasMdE`), sorted by path relative
to the root under the `localeCompare` collation order (not the ordinal
order). -/
theorem claim_c5_collect_contract (dirAt : Path → DirLookup) (root : Path) :
    (dirAt root = .missing →
      collectMarkdownFiles dirAt root = .error ("Missing directory: " ++ renderAbs root)) ∧
    (dirAt root = .notDir →
      collectMarkdownFiles dirAt root = .error ("Not a directory: " ++ renderAbs root)) ∧
    (∀ es, dirAt root = .tree (.dir es) →
      ∃ l, collectMarkdownFiles dirAt root = .ok l ∧
        List.Perm l (FSNode.mdFiles (.dir es) root) ∧
        l.Pairwise (relLe root) ∧
        (∀ p, p ∈ l ↔ ∃ segs, HasMdE es segs ∧ p = root ++ segs)) := by
  refine ⟨fun h => ?_, fun h => ?_, fun es h => ?_⟩
  · unfold collectMarkdownFiles
    rw [h]
  · unfold collectMarkdownFiles
    rw [h]
  · refine ⟨collectSorted root (.dir es), ?_, ?_, ?_, ?_⟩
    · unfold collectMarkdownFiles
      rw [h]
    · exact List.perm_insertionSort _ _
    · exact List.sorted_insertionSort _ _
    · intro p
      rw [show collectSorted root (.dir es) =
        (FSNode.mdFiles (.dir es) root).insertionSort (relLe root) from rfl]
      rw [List.mem_insertionSort]
      exact mem_mdFilesE_iff es root p

/-- C5 witness: the contract evaluated on a small concrete tree with a
nested directory and a non-markdown file. -/
theorem claim_c5_collect_contract_witness :
    (let tree : FSEntries :=
      .cons "sub" (.dir (.cons "inner.MD" .file .nil))
        (.cons "top.md" .file (.cons "skip.txt" .file .nil))
     let dirAt : Path → DirLookup := fun p => if p = ["r"] then .tree (.dir tree) else .missing
     ∃ l, collectMarkdownFiles dirAt ["r"] = .ok l ∧
       List.Perm l (FSNode.mdFiles (.dir tree) ["r"]) ∧
       l.Pairwise (relLe ["r"]) ∧
       (∀ p, p ∈ l ↔ ∃ segs, HasMdE tree segs ∧ p = ["r"] ++ segs)) := by
  intro tree dirAt
  exact (claim_c5_collect_contract dirAt ["r"]).2.2 tree (by rfl)

/-- C9: compose is deterministic — the result is a function of the
configuration (parsed ruleset and filesystem/git world) and the
fragment contents actually read: two runs whose environments share the
ruleset outcome, the git world, the directory trees, the existence
oracle and the tool-rules contents, and whose fragment readers agree on
every collected rule file, produce byte-identical write effects and the
identical reported path.  In particular, re-running with everything
unchanged rewrites the output file with exactly the bytes it already
holds. -/
theorem claim_c9_deterministic (rs : Except Err ProjectRuleset) (g : GitEnv)
    (da : Path → DirLookup) (pe : Path → Bool)
    (rf rf' : Path → Except Err String) (tr : String)
    (rulesetPath rootDir : Path) (opts : ComposeOptions)
    (hagree : ∀ r rulesRoot ref? rules,
      rs = .ok r →
      (resolveRulesRoot g da pe (pathDirname rulesetPath) r.source opts.refresh).2 =
        .ok (rulesRoot, ref?) →
      collectResolvedRules da pe (pathDirname rulesetPath) r rulesRoot = .ok rules →
      ∀ p ∈ rules, rf' p = rf p) :
    composeRuleset ⟨rs, g, da, pe, rf', tr⟩ rulesetPath rootDir opts =
      composeRuleset ⟨rs, g, da, pe, rf, tr⟩ rulesetPath rootDir opts := by
  unfold composeRuleset
  dsimp only
  cases henv : rs with
  | error e => rfl
  | ok r =>
    dsimp only
    cases hres : (resolveRulesRoot g da pe (pathDirname rulesetPath) r.source opts.refresh).2 with
    | error e => rfl
    | ok pr =>
      obtain ⟨rulesRoot, ref?⟩ := pr
      dsimp only
      cases hcol : collectResolvedRules da pe (pathDirname rulesetPath) r rulesRoot with
      | error e => rfl
      | ok rules =>
        dsimp only
        have hbp : buildParts rf' (pathDirname rulesetPath) rulesRoot r.source ref? rules =
            buildParts rf (pathDirname rulesetPath) rulesRoot r.source ref? rules := by
          unfold buildParts
          refine mapM_except_congr (fun p hp => ?_)
          rw [hagree r rulesRoot ref? rules henv hres hcol p hp]
        rw [hbp]
        rfl

/-- C9 witness: a concrete successful local run where the second reader
differs from the first everywhere except on the one collected fragment;
the two runs coincide. -/
theorem claim_c9_deterministic_witness :
    (let g : GitEnv := ⟨[], .error "x", .error "x", fun _ => .error "x",
        fun _ => false, fun _ => false, fun _ => false⟩
     let da : Path → DirLookup := fun p =>
        if p = ["proj", "rules"] then
          .tree (.dir (.cons "global" (.dir (.cons "a.md" .file .nil)) .nil))
        else if p = ["proj", "rules", "global"] then
          .tree (.dir (.cons "a.md" .file .nil))
        else .missing
     let rf : Path → Except Err String := fun _ => .ok "body"
     let rf' : Path → Except Err String := fun p =>
        if p = ["proj", "rules", "global", "a.md"] then .ok "body" else .error "changed"
     composeRuleset ⟨.ok { source := "rules" }, g, da, fun _ => true, rf', "T"⟩
        ["proj", "agent-ruleset.json"] ["proj"] {} =
       composeRuleset ⟨.ok { source := "rules" }, g, da, fun _ => true, rf, "T"⟩
        ["proj", "agent-ruleset.json"] ["proj"] {}) := by
  intro g da rf rf'
  refine claim_c9_deterministic (.ok { source := "rules" }) g da (fun _ => true) rf rf' "T"
    ["proj", "agent-ruleset.json"] ["proj"] {} ?_
  intro r rulesRoot ref? rules h1 h2 h3 p hp
  obtain rfl : ({ source := "rules" } : ProjectRuleset) = r := Except.ok.inj h1
  rw [show (resolveRulesRoot g da (fun _ => true) (pathDirname ["proj", "agent-ruleset.json"])
      ({ source := "rules" } : ProjectRuleset).source ({} : ComposeOptions).refresh).2 =
    Except.ok ((["proj", "rules"] : Path), (none : Option String)) from rfl] at h2
  obtain rfl : rulesRoot = ["proj", "rules"] := (congrArg Prod.fst (Except.ok.inj h2)).symm
  rw [show collectResolvedRules da (fun _ => true) (pathDirname ["proj", "agent-ruleset.json"])
      ({ source := "rules" } : ProjectRuleset) ["proj", "rules"] =
    Except.ok [["proj", "rules", "global", "a.md"]] from rfl] at h3
  obtain rfl : rules = [["proj", "rules", "global", "a.md"]] := (Except.ok.inj h3).symm
  obtain rfl : p = ["proj", "rules", "global", "a.md"] := by simpa using hp
  rfl

theorem mapM_except_mem {α β : Type} {f : α → Except Err β} :
    ∀ {l : List α} {ys : List β}, l.mapM f = .ok ys → ∀ y ∈ ys, ∃ x ∈ l, f x = .ok y
  | [], ys, h, y, hy => by
    cases h
    cases hy
  | a :: t, ys, h, y, hy => by
    rw [List.mapM_cons] at h
    cases hfa : f a with
    | error e =>
      rw [hfa] at h
      exact Except.noConfusion h
    | ok b =>
      rw [hfa, exceptOkBind] at h
      cases hrec : t.mapM f with
      | error e =>
        rw [hrec] at h
        exact Except.noConfusion h
      | ok bs =>
        rw [hrec, exceptOkBind] at h
        cases h
        rcases List.mem_cons.mp hy with rfl | hy'
        · exact ⟨a, List.mem_cons_self a t, hfa⟩
        · obtain ⟨x, hx, hfx⟩ := mapM_except_mem hrec y hy'
          exact ⟨x, List.mem_cons_of_mem a hx, hfx⟩

/-- C10 counterexample: a successful run over a single fragment whose
body is empty (equivalently, all whitespace) writes a document that
ends in three newline characters, not exactly one, and whose last
segment is not a fixed point of trailing-whitespace stripping. -/
theorem claim_c10_counterexample :
    (let env : Env :=
      ⟨.ok { source := "rules" },
       ⟨[], .error "x", .error "x", fun _ => .error "x", fun _ => false,
         fun _ => false, fun _ => false⟩,
       fun p =>
         if p = ["proj", "rules"] then
           .tree (.dir (.cons "global" (.dir (.cons "a.md" .file .nil)) .nil))
         else if p = ["proj", "rules", "global"] then
           .tree (.dir (.cons "a.md" .file .nil))
         else .missing,
       fun _ => true, fun _ => .ok "", "T"⟩
     (composeRuleset env ["proj", "agent-ruleset.json"] ["proj"] {}).2 = .ok "AGENTS.md" ∧
     (composeRuleset env ["proj", "agent-ruleset.json"] ["proj"] {}).1 =
       [.mkdirp ["proj"],
        .writeFile ["proj", "AGENTS.md"]
          "<!-- markdownlint-disable MD025 -->\nT\n\nSource: rules/global/a.md\n\n\n"] ∧
     endsWithExactlyOneNewline
       "<!-- markdownlint-disable MD025 -->\nT\n\nSource: rules/global/a.md\n\n\n" = false ∧
     normalizeTrailingWhitespace "Source: rules/global/a.md\n\n" ≠
       "Source: rules/global/a.md\n\n") := by
  intro env
  refine ⟨by rfl, by rfl, by rfl, by decide⟩

/-- C10 (amended): every content `composeRuleset` writes is the fixed
assembly — the lint-header line, then the tool-rules block and the
fragment segments joined by exactly one blank line (`"\n\n"`), then a
final newline — and each fragment segment is `Source: <path>`, a blank
line, and the trailing-whitespace-stripped body.  Provided the stripped
tool rules are nonempty and every fragment body is nonempty after
stripping (the source does not guarantee this: see the counterexample),
every segment is a fixed point of trailing-whitespace stripping and the
document ends with exactly one newline character. -/
theorem claim_c10_output_shape (env : Env) (rulesetPath rootDir : Path)
    (opts : ComposeOptions) (op : Path) (out : String)
    (hw : WriteEff.writeFile op out ∈ (composeRuleset env rulesetPath rootDir opts).1)
    (htr : (TOOL_RULES env).data ≠ [])
    (hbody : ∀ q b, env.readFile q = .ok b → (normalizeTrailingWhitespace b).data ≠ []) :
    ∃ r rulesRoot ref? rules parts,
      env.ruleset = .ok r ∧
      collectResolvedRules env.dirAt env.pathExists (pathDirname rulesetPath) r rulesRoot =
        .ok rules ∧
      buildParts env.readFile (pathDirname rulesetPath) rulesRoot r.source ref? rules =
        .ok parts ∧
      out = assembleOutput (TOOL_RULES env) parts ∧
      out = LINT_HEADER ++ "\n" ++ joinSep "\n\n" (TOOL_RULES env :: parts) ++ "\n" ∧
      (∀ part ∈ parts, ∃ rp sp b, rp ∈ rules ∧ env.readFile rp = .ok b ∧
        formatRuleSourcePath rp rulesRoot (pathDirname rulesetPath) r.source ref? = .ok sp ∧
        part = "Source: " ++ sp ++ "\n\n" ++ normalizeTrailingWhitespace b) ∧
      (∀ part ∈ TOOL_RULES env :: parts, normalizeTrailingWhitespace part = part) ∧
      endsWithExactlyOneNewline out = true := by
  unfold composeRuleset at hw
  cases henv : env.ruleset with
  | error e =>
    rw [henv] at hw
    exact absurd hw (by simp)
  | ok r =>
    rw [henv] at hw
    dsimp only at hw
    cases hres : (resolveRulesRoot env.git env.dirAt env.pathExists (pathDirname rulesetPath)
        r.source opts.refresh).2 with
    | error e =>
      rw [hres] at hw
      exact absurd hw (by simp)
    | ok pr =>
      obtain ⟨rulesRoot, ref?⟩ := pr
      rw [hres] at hw
      dsimp only at hw
      cases hcol : collectResolvedRules env.dirAt env.pathExists (pathDirname rulesetPath)
          r rulesRoot with
      | error e =>
        rw [hcol] at hw
        exact absurd hw (by simp)
      | ok rules =>
        rw [hcol] at hw
        dsimp only at hw
        cases hbp : buildParts env.readFile (pathDirname rulesetPath) rulesRoot
            r.source ref? rules with
        | error e =>
          rw [hbp] at hw
          exact absurd hw (by simp)
        | ok parts =>
          rw [hbp] at hw
          dsimp only at hw
          by_cases hd : opts.dryRun
          · rw [if_pos hd] at hw
            exact absurd hw (by simp)
          · rw [if_neg hd] at hw
            simp only [List.mem_cons, List.mem_singleton] at hw
            rcases hw with hw | hw | hw
            · exact absurd hw (by simp)
            · obtain ⟨_, hc⟩ := WriteEff.writeFile.inj hw.symm
              subst hc
              have htrfix : normalizeTrailingWhitespace (TOOL_RULES env) = TOOL_RULES env := by
                cases hgl : (TOOL_RULES env).data.getLast? with
                | none => exact absurd (List.getLast?_eq_none_iff.mp hgl) htr
                | some c => exact normalizeTrailingWhitespace_eq_self hgl (norm_getLast_not_ws hgl)
              have hout2 : assembleOutput (TOOL_RULES env) parts =
                  LINT_HEADER ++ "\n" ++ joinSep "\n\n" (TOOL_RULES env :: parts) ++ "\n" := by
                unfold assembleOutput
                rw [htrfix]
              have hseg : ∀ part ∈ parts, ∃ rp sp b, rp ∈ rules ∧
                  env.readFile rp = .ok b ∧
                  formatRuleSourcePath rp rulesRoot (pathDirname rulesetPath) r.source ref? =
                    .ok sp ∧
                  part = "Source: " ++ sp ++ "\n\n" ++ normalizeTrailingWhitespace b := by
                intro part hpart
                unfold buildParts at hbp
                obtain ⟨rp, hrp, hfeq⟩ := mapM_except_mem hbp part hpart
                cases hrd : env.readFile rp with
                | error e =>
                  rw [hrd] at hfeq
                  exact Except.noConfusion hfeq
                | ok b =>
                  rw [hrd] at hfeq
                  dsimp only at hfeq
                  cases hfmt : formatRuleSourcePath rp rulesRoot (pathDirname rulesetPath)
                      r.source ref? with
                  | error e =>
                    rw [hfmt] at hfeq
                    exact Except.noConfusion hfeq
                  | ok sp =>
                    rw [hfmt] at hfeq
                    dsimp only at hfeq
                    exact ⟨rp, sp, b, hrp, hrd, hfmt, (Except.ok.inj hfeq).symm⟩
              have hlast : ∀ part ∈ TOOL_RULES env :: parts,
                  ∃ c, part.data.getLast? = some c ∧ jsWS c = false := by
                intro part hpart
                rcases List.mem_cons.mp hpart with rfl | hpart'
                · cases hgl : (TOOL_RULES env).data.getLast? with
                  | none => exact absurd (List.getLast?_eq_none_iff.mp hgl) htr
                  | some c => exact ⟨c, rfl, norm_getLast_not_ws hgl⟩
                · obtain ⟨rp, sp, b, _, hrd, _, hpeq⟩ := hseg part hpart'
                  have hnb := hbody rp b hrd
                  cases hgl : (normalizeTrailingWhitespace b).data.getLast? with
                  | none => exact absurd (List.getLast?_eq_none_iff.mp hgl) hnb
                  | some c =>
                    refine ⟨c, ?_, norm_getLast_not_ws hgl⟩
                    rw [hpeq]
                    show ((("Source: " ++ sp ++ "\n\n") ++
                      normalizeTrailingWhitespace b).data).getLast? = some c
                    rw [String.data_append, List.getLast?_append, hgl]
                    rfl
              have hstrip : ∀ part ∈ TOOL_RULES env :: parts,
                  normalizeTrailingWhitespace part = part := by
                intro part hpart
                obtain ⟨c, hgl, hws⟩ := hlast part hpart
                exact normalizeTrailingWhitespace_eq_self hgl hws
              have hone : endsWithExactlyOneNewline
                  (assembleOutput (TOOL_RULES env) parts) = true := by
                rw [hout2]
                have hlne : (TOOL_RULES env :: parts) ≠ [] := List.cons_ne_nil _ _
                have hz : (TOOL_RULES env :: parts).getLast? =
                    some ((TOOL_RULES env :: parts).getLast hlne) :=
                  List.getLast?_eq_getLast_of_ne_nil hlne
                have hzmem : (TOOL_RULES env :: parts).getLast hlne ∈ TOOL_RULES env :: parts :=
                  List.getLast_mem hlne
                obtain ⟨c, hcl, hws⟩ := hlast _ hzmem
                have hzne : ((TOOL_RULES env :: parts).getLast hlne).data ≠ [] := fun hn => by
                  rw [hn] at hcl
                  exact Option.noConfusion hcl
                obtain ⟨hj1, hj2⟩ := joinSep_getLast "\n\n" hz hzne
                have hcne : c ≠ '\n' := by
                  intro hc
                  rw [hc] at hws
                  exact absurd hws (by decide)
                have hx : ((LINT_HEADER ++ "\n") ++
                    joinSep "\n\n" (TOOL_RULES env :: parts)).data.getLast? = some c := by
                  rw [String.data_append, List.getLast?_append, hj1, hcl]
                  rfl
                exact endsWithExactlyOneNewline_append hx hcne
              exact ⟨r, rulesRoot, ref?, rules, parts, rfl, hcol, hbp, rfl, hout2,
                hseg, hstrip, hone⟩
            · exact absurd hw (by simp)

/-- C10 witness: the shape theorem applied to a concrete successful run
with a nonempty fragment body and nonempty tool rules. -/
theorem claim_c10_output_shape_witness :
    (let env : Env :=
      ⟨.ok { source := "rules" },
       ⟨[], .error "x", .error "x", fun _ => .error "x", fun _ => false,
         fun _ => false, fun _ => false⟩,
       fun p =>
         if p = ["proj", "rules"] then
           .tree (.dir (.cons "global" (.dir (.cons "a.md" .file .nil)) .nil))
         else if p = ["proj", "rules", "global"] then
           .tree (.dir (.cons "a.md" .file .nil))
         else .missing,
       fun _ => true, fun _ => .ok "body", "T"⟩
     ∃ r rulesRoot ref? rules parts,
      env.ruleset = .ok r ∧
      collectResolvedRules env.dirAt env.pathExists
        (pathDirname ["proj", "agent-ruleset.json"]) r rulesRoot = .ok rules ∧
      buildParts env.readFile (pathDirname ["proj", "agent-ruleset.json"]) rulesRoot
        r.source ref? rules = .ok parts ∧
      "<!-- markdownlint-disable MD025 -->\nT\n\nSource: rules/global/a.md\n\nbody\n" =
        assembleOutput (TOOL_RULES env) parts ∧
      "<!-- markdownlint-disable MD025 -->\nT\n\nSource: rules/global/a.md\n\nbody\n" =
        LINT_HEADER ++ "\n" ++ joinSep "\n\n" (TOOL_RULES env :: parts) ++ "\n" ∧
      (∀ part ∈ parts, ∃ rp sp b, rp ∈ rules ∧ env.readFile rp = .ok b ∧
        formatRuleSourcePath rp rulesRoot (pathDirname ["proj", "agent-ruleset.json"])
          r.source ref? = .ok sp ∧
        part = "Source: " ++ sp ++ "\n\n" ++ normalizeTrailingWhitespace b) ∧
      (∀ part ∈ TOOL_RULES env :: parts, normalizeTrailingWhitespace part = part) ∧
      endsWithExactlyOneNewline
        "<!-- markdownlint-disable MD025 -->\nT\n\nSource: rules/global/a.md\n\nbody\n" =
        true) := by
  intro env
  refine claim_c10_output_shape env ["proj", "agent-ruleset.json"] ["proj"] {}
    ["proj", "AGENTS.md"]
    "<!-- markdownlint-disable MD025 -->\nT\n\nSource: rules/global/a.md\n\nbody\n"
    (by decide) (by decide) ?_
  intro q b h
  obtain rfl : "body" = b := Except.ok.inj h
  decide
